import Mathlib

/-!
Verification of the FARSEER query compiler specification against the source.

This file shallowly embeds the parts of the repository the claims are about:
  * `src/farseer/compile/cmpl.py` — the query-plan IR (`QStruct` and friends),
    the SQL renderers (`__repr__` and `gen_sql`), freezing (`freeze`,
    `freeze_qsts`), deduplication (`dedup_frozen`, `substitute_table`) and the
    per-operator lowering functions (`cmpl*`, `do_composition*`);
  * `src/farseer/term/trm.py` — the term algebra (`Application`, the
    `Operation` singletons and their `checkapplicationconstraints` /
    `getreturntype` methods, `Application.equals`);
  * `src/farseer/kind/knd.py` — the Kind hierarchy (`Kind.equals`,
    variants, `Gap.equals`).

Modelling conventions:
  * Python strings are Lean `String`s; `Name` objects are plain strings
    (`Name.__eq__` and `Name.__repr__` are string equality / identity).
  * Python runtime crashes (AttributeError / IndexError / NameError /
    TypeError) are modelled with `Option` / a dedicated `crash` error value;
    a function returns `none` exactly where the Python raises a non-`farseer`
    exception.
  * The process-global `table_num` counter is threaded explicitly as a `Nat`.
  * Mutation is translated to explicit construction of the post-state.
-/

set_option maxHeartbeats 1000000

namespace Farseer

/-- The single-quote character, used in the literal codomains `'*'` and
`'constant'` emitted by `cmplimmediate` / `cmplconstant`. -/
def sqc : Char := Char.ofNat 39

/-- The string consisting of one single quote. -/
def sq : String := String.singleton sqc

/-- Leftmost-occurrence substring replacement on character lists, the model of
Python `str.replace(old, new, 1)` (used by `Column.replace_table` and
`TableAlias.replace_alias`). -/
def replFirst (pat repl : List Char) : List Char → List Char
  | [] => []
  | c :: rest =>
    if pat ≠ [] ∧ pat.isPrefixOf (c :: rest) then
      repl ++ (c :: rest).drop pat.length
    else
      c :: replFirst pat repl rest

/-- `str.replace(old, new, 1)` on strings.  Python replaces nothing when the
pattern is absent; an empty pattern inserts at position 0 (irrelevant here:
the compiler never replaces an empty table name — we keep the string unchanged
in that case, see `replFirst`). -/
def strReplaceFirst (s pat repl : String) : String :=
  String.mk (replFirst pat.data repl.data s.data)

/-- Python `%`-formatting as used by `ExpressionAlias`: each `%s` in the
format string consumes the next argument.  (Python raises `TypeError` on an
argument-count mismatch; the compiler only instantiates `ExpressionAlias`
with matching counts — `"%s"` with one argument and
`"(1.0 * %s) / %s"` with two — so the mismatch case is degraded to skipping.) -/
def formatPct : List Char → List String → String
  | [], _ => ""
  | '%' :: 's' :: rest, a :: args => a ++ formatPct rest args
  | '%' :: 's' :: rest, [] => formatPct rest []
  | c :: rest, args => String.singleton c ++ formatPct rest args

/-- The model of `re.sub(r"(tmp[0-9]+)", r"#\1", sql)` from
`QStruct.gen_sql`: prepend `#` to every maximal occurrence of `tmp`
followed by one or more decimal digits, scanning left to right. -/
def subTmp : List Char → List Char
  | [] => []
  | 't' :: 'm' :: 'p' :: c :: rest =>
    if c.isDigit then
      '#' :: 't' :: 'm' :: 'p' :: ((c :: rest).takeWhile Char.isDigit
        ++ subTmp ((c :: rest).dropWhile Char.isDigit))
    else
      't' :: subTmp ('m' :: 'p' :: c :: rest)
  | c :: rest => c :: subTmp rest
termination_by l => l.length
decreasing_by
  all_goals simp_all [List.length]
  have h := ((List.dropWhile_suffix (l := rest) Char.isDigit).sublist).length_le
  omega

/-- `subTmp` on strings. -/
def subTmpStr (s : String) : String := String.mk (subTmp s.data)

/-- The number of positions of `s` at which `pat` occurs as a substring
(all start positions counted). -/
def countOcc (pat : List Char) : List Char → Nat
  | [] => 0
  | c :: rest => (if pat.isPrefixOf (c :: rest) then 1 else 0) + countOcc pat rest

/-- First index of an element in a list of strings; the model of Python
`list.index` on the deduplicator's `queries` list (`ValueError` becomes
`none`). -/
def firstIdx (r : String) : List String → Option Nat
  | [] => none
  | s :: rest => if s = r then some 0 else (firstIdx r rest).map (· + 1)

/-- Structural `Option`-valued map (the monadic list map used throughout the
translation; `none` propagates a Python crash). -/
def mapMO (f : α → Option β) : List α → Option (List β)
  | [] => some []
  | a :: rest => do
    let b ← f a
    let r ← mapMO f rest
    pure (b :: r)

/-! ## The query-plan IR (`cmpl.py` classes) -/

/-- `ColumnAlias(table, column, alias)` — also models plain `Column`
(`al = ""`; `Column.__repr__` and `ColumnAlias.__repr__` then coincide). -/
structure CA where
  table : String
  col : String
  al : String
deriving DecidableEq, Repr

/-- A select expression: either a `ColumnAlias`, an `ExpressionAlias`
(argument list, alias, prefix and `%`-format separator), or the Python
`None` placeholder that `do_composition_rhs_projection` inserts into
`selectsdom`. -/
inductive SelCol where
  | colA (c : CA)
  | exprA (args : List SelCol) (al : String) (pre : String) (inf : String)
  | noneV
deriving Repr

/-- `Cond(lhs, rhs)` — an equality condition.  `cmplinclusion` stores whole
select expressions in conditions, so both sides are `SelCol`s; join
conditions always hold `colA`s produced by `get_column()`. -/
structure Cond where
  lhs : SelCol
  rhs : SelCol
deriving Repr

/-- `JoinSpec(table, alias, ...)` with its condition list. -/
structure JoinSpec where
  table : String
  al : String
  conds : List Cond
deriving Repr

/-- `TableAlias(table, alias)`. -/
structure TableAlias where
  table : String
  al : String
deriving DecidableEq, Repr

/-- The grouping spec: a column list, or the Python literal `True`
("aggregate over everything") that `cmplaggregation` assigns when no group
column carries a table. -/
inductive GroupBys where
  | cols (l : List CA)
  | allAgg
deriving DecidableEq, Repr

/-- `QStruct`.  `tablename` is only assigned by `freeze` (it models the
dynamically-added attribute; `""` on plans that never had one).  `frm` is
`none` when the Python attribute is `None` (immediates whose domain is not
an object type). -/
inductive QS where
  | mk (tablename : String) (selectsdom selectscod : List SelCol)
       (frm : Option TableAlias) (joins : List JoinSpec) (wheres : List Cond)
       (groupbys : GroupBys) (frozen : List QS) (distinct : Bool)
       (orderby : Option String) (orderdir : String)

/-- The `tablename` attribute. -/
def QS.tablename : QS → String
  | .mk t _ _ _ _ _ _ _ _ _ _ => t

/-- The `selectsdom` attribute. -/
def QS.selectsdom : QS → List SelCol
  | .mk _ d _ _ _ _ _ _ _ _ _ => d

/-- The `selectscod` attribute. -/
def QS.selectscod : QS → List SelCol
  | .mk _ _ c _ _ _ _ _ _ _ _ => c

/-- The `frm` attribute. -/
def QS.frm : QS → Option TableAlias
  | .mk _ _ _ f _ _ _ _ _ _ _ => f

/-- The `joins` attribute. -/
def QS.joins : QS → List JoinSpec
  | .mk _ _ _ _ j _ _ _ _ _ _ => j

/-- The `wheres` attribute. -/
def QS.wheres : QS → List Cond
  | .mk _ _ _ _ _ w _ _ _ _ _ => w

/-- The `groupbys` attribute. -/
def QS.groupbys : QS → GroupBys
  | .mk _ _ _ _ _ _ g _ _ _ _ => g

/-- The `frozen_qsts` attribute. -/
def QS.frozen : QS → List QS
  | .mk _ _ _ _ _ _ _ z _ _ _ => z

/-- The `distinct` attribute. -/
def QS.distinct : QS → Bool
  | .mk _ _ _ _ _ _ _ _ x _ _ => x

/-- The `orderby` attribute (`none` models Python `None`). -/
def QS.orderby : QS → Option String
  | .mk _ _ _ _ _ _ _ _ _ o _ => o

/-- The `orderdir` attribute. -/
def QS.orderdir : QS → String
  | .mk _ _ _ _ _ _ _ _ _ _ d => d

/-- Replace the `frozen_qsts` list. -/
def QS.withFrozen : QS → List QS → QS
  | .mk t d c f j w g _ x o r, z => .mk t d c f j w g z x o r

/-! ## Rendering (`__repr__` and `gen_sql`) -/

/-- The two SQL dialects, `DIALECT_MYSQL` and `DIALECT_SQLSERVER`. -/
inductive Dialect where
  | mysql
  | tsql
deriving DecidableEq, Repr

/-- `Alias.__repr__`: `" AS alias"` when the alias is non-empty. -/
def reprAl (al : String) : String := if al ≠ "" then " AS " ++ al else ""

/-- `Column.__repr__` combined with `Alias.__repr__`
(`ColumnAlias.__repr__`): `table.column AS alias`, the table part omitted
when the table name is empty. -/
def reprCA (c : CA) : String :=
  (if c.table ≠ "" then c.table ++ "." ++ c.col else c.col) ++ reprAl c.al

mutual

/-- `ExpressionAlias.__repr__` / `ColumnAlias.__repr__` on a select
expression; the Python `None` placeholder prints as `"None"`
(`repr(None)`). -/
def reprSel : SelCol → String
  | .colA c => reprCA c
  | .exprA args al pre inf =>
    if args.length = 0 then ""
    else if args.length = 1 ∧ pre = "" then
      reprSelList args ++ reprAl al
    else
      pre ++ "(" ++ formatPct inf.data (reprSelEach args) ++ ")" ++ reprAl al
  | .noneV => "None"

/-- Rendering of the single argument of a prefix-less one-argument
`ExpressionAlias`. -/
def reprSelList : List SelCol → String
  | [] => ""
  | s :: _ => reprSel s

/-- The rendered arguments of an `ExpressionAlias`. -/
def reprSelEach : List SelCol → List String
  | [] => []
  | s :: rest => reprSel s :: reprSelEach rest

end

/-- `Cond.__repr__`: `(lhs = rhs)`. -/
def reprCond (c : Cond) : String :=
  "(" ++ reprSel c.lhs ++ " = " ++ reprSel c.rhs ++ ")"

/-- `CondList.__repr__`: the conditions joined by `" AND "`. -/
def reprCondList (l : List Cond) : String :=
  String.intercalate " AND " (l.map reprCond)

/-- `TableAlias.__repr__`. -/
def reprTA (t : TableAlias) : String :=
  if t.al = "" ∨ t.table = t.al then t.table
  else if t.table ≠ "" then t.table ++ " AS " ++ t.al
  else ""

/-- The rendering of the `frm` attribute: Python `repr(None) = "None"` when
the attribute is `None`. -/
def reprFrm : Option TableAlias → String
  | none => "None"
  | some t => reprTA t

/-- `JoinSpec.__repr__`: `table AS alias ON conds`. -/
def reprJoin (j : JoinSpec) : String :=
  reprTA ⟨j.table, j.al⟩ ++ " ON " ++ reprCondList j.conds

/-- The `colspec` accumulation loop shared by `__repr__` and `gen_sql`:
a separating `", "` is inserted before every rendered expression once the
accumulator is non-empty. -/
def colspecStr (cols : List SelCol) : String :=
  cols.foldl (fun acc s =>
    if acc ≠ "" then acc ++ ", " ++ reprSel s else reprSel s) ""

/-- The `joinstr` accumulation loop. -/
def joinsStr (js : List JoinSpec) : String :=
  js.foldl (fun acc j => acc ++ "\nJOIN " ++ reprJoin j) ""

/-- The `wherestr` accumulation loop: `"\nWHERE c"` for the first condition,
`" AND c"` afterwards. -/
def wheresStr (ws : List Cond) : String :=
  ws.foldl (fun acc w =>
    if acc ≠ "" then acc ++ " AND " ++ reprCond w else "\nWHERE " ++ reprCond w) ""

/-- The `groupbystr` accumulation loop; the `True` ("aggregate all") spec is
not a list, so it renders nothing. -/
def groupbysStr : GroupBys → String
  | .allAgg => ""
  | .cols l =>
    l.foldl (fun acc g =>
      if acc ≠ "" then acc ++ ", " ++ reprCA g else "\nGROUP BY " ++ reprCA g) ""

mutual

/-- `QStruct.__repr__`: materialization statements for the frozen children
followed by the plan's own `SELECT`, with an inline `LIMIT 5` row cap on
ordered plans. -/
def reprQ : QS → String
  | .mk _ dom cod frm joins wheres gbs frozen dist ob od =>
    reprFrozenList frozen
      ++ "SELECT " ++ (if dist then "DISTINCT " else "")
      ++ colspecStr (dom ++ cod)
      ++ (if reprFrm frm ≠ "" then "\nFROM " ++ reprFrm frm else "")
      ++ joinsStr joins ++ wheresStr wheres ++ groupbysStr gbs
      ++ (match ob with
          | some o => "\nORDER BY " ++ o ++ " "
              ++ (if od = "desc" then "DESC" else "ASC") ++ " LIMIT 5"
          | none => "")
      ++ "\n"

/-- The `CREATE TEMPORARY TABLE` prelude of `QStruct.__repr__`. -/
def reprFrozenList : List QS → String
  | [] => ""
  | q :: rest =>
    "CREATE TEMPORARY TABLE " ++ q.tablename ++ "\n" ++ reprQ q
      ++ reprFrozenList rest

end

/-- The `topstr` fragment of `gen_sql`: `"TOP 5 "` for an ordered plan in the
T-SQL dialect. -/
def topStr (q : QS) (d : Dialect) : String :=
  if q.orderby.isSome ∧ d = .tsql then "TOP 5 " else ""

/-- The `orderbystr ++ limitstr` fragment of `gen_sql`: the `ORDER BY`
clause, with ` LIMIT 5` appended in the MySQL dialect. -/
def ordStr (q : QS) (d : Dialect) : String :=
  match q.orderby with
  | none => ""
  | some o =>
    "\nORDER BY " ++ o ++ " " ++ (if q.orderdir = "desc" then "DESC" else "ASC")
      ++ (if d = .mysql then " LIMIT 5" else "")

/-- The middle fragment of `gen_sql`: `colspec`, `into_str`, `fromstr`,
`joinstr`, `wherestr` and `groupbystr`.  `none` models the `AttributeError`
Python raises when `frm` is `None` (all leaf `gen_sql` renderings equal the
corresponding `__repr__` renderings, so the `__repr__` helpers are reused). -/
def genSqlMid (q : QS) (d : Dialect) (ct : Bool) : Option String :=
  match q.frm with
  | none => none
  | some fr =>
    some (colspecStr (q.selectsdom ++ q.selectscod)
      ++ (if ct ∧ d ≠ .mysql then " INTO " ++ q.tablename else "")
      ++ (if reprTA fr ≠ "" then "\nFROM " ++ reprTA fr else "")
      ++ joinsStr q.joins ++ wheresStr q.wheres ++ groupbysStr q.groupbys)

/-- The `create_str` fragment of `gen_sql`. -/
def createStr (q : QS) (d : Dialect) (ct : Bool) : String :=
  if ct ∧ d = .mysql then "CREATE TEMPORARY TABLE " ++ q.tablename ++ "\n" else ""

mutual

/-- `QStruct.gen_sql` before the final T-SQL temp-table rewriting: the frozen
children (rendered with `create_table = True`) followed by this plan's own
statement. -/
def genSqlCore : QS → Dialect → Bool → Option String
  | q@(.mk _ _ _ _ _ _ _ frozen _ _ _), d, ct => do
    let kids ← genSqlKids frozen d
    let mid ← genSqlMid q d ct
    pure (kids ++ createStr q d ct
      ++ "SELECT " ++ (if q.distinct then "DISTINCT " else "") ++ topStr q d
      ++ mid ++ ordStr q d ++ "\n\n")

/-- The accumulation of the frozen children's `gen_sql` output. -/
def genSqlKids : List QS → Dialect → Option String
  | [], _ => some ""
  | q :: rest, d => do
    let s ← genSqlCore q d true
    let r ← genSqlKids rest d
    pure (s ++ r)

end

/-- `QStruct.gen_sql(dialect, create_table)`: on the outermost T-SQL call
every reference to a `tmp<digits>` temp table in the whole accumulated text
is rewritten with a `#` prefix (`re.sub(r"(tmp[0-9]+)", r"#\1", sql)`). -/
def genSql (q : QS) (d : Dialect) (ct : Bool) : Option String :=
  (genSqlCore q d ct).map (fun s => if d = .tsql ∧ ¬ct then subTmpStr s else s)

/-! ## Construction, freezing, substitution, deduplication -/

/-- The column-name attribute of a select expression
(`ExpressionAlias` has no `.column`; Python raises there). -/
def selColName : SelCol → Option String
  | .colA c => some c.col
  | _ => none

/-- `JoinSpec.__eq__`: same table, same number of conditions, and pairwise
equal left column names and right-side renderings.  (The `.column` access
crashes in Python on a non-column condition side; join conditions are always
plain columns, so that case is degraded to `false`.) -/
def joinEq (a b : JoinSpec) : Bool :=
  a.table == b.table && a.conds.length == b.conds.length &&
  (List.zip a.conds b.conds).all fun p =>
    match selColName p.1.lhs, selColName p.2.lhs with
    | some x, some y => x == y && reprSel p.1.rhs == reprSel p.2.rhs
    | _, _ => false

/-- `QStruct.add_join`: append unless an equal join is already present. -/
def addJoin (js : List JoinSpec) (j : JoinSpec) : List JoinSpec :=
  if js.all (fun j2 => !(joinEq j2 j)) then js ++ [j] else js

/-- `QStruct.add_where`: append unless a condition with the same rendering is
already present. -/
def addWhere (ws : List Cond) (w : Cond) : List Cond :=
  if ws.all (fun w2 => reprCond w2 != reprCond w) then ws ++ [w] else ws

/-- `QStruct.__init__`: the constructor deduplicates the supplied joins and
where-conditions through `add_join` / `add_where`.  Fresh plans carry no
`tablename` attribute (modelled `""`). -/
def mkQStruct (dom cod : List SelCol) (frm : Option TableAlias)
    (joins : List JoinSpec) (wheres : List Cond) (gbs : GroupBys)
    (frozen : List QS) (dist : Bool) (ob : Option String) (od : String) : QS :=
  .mk "" dom cod frm (joins.foldl addJoin []) (wheres.foldl addWhere []) gbs
    frozen dist ob od

/-- The `alias` attribute of a select expression (the `None` placeholder has
no alias attribute in Python; unreachable at freeze time). -/
def selAl : SelCol → String
  | .colA c => c.al
  | .exprA _ al _ _ => al
  | .noneV => ""

/-- Overwrite the `alias` attribute of a select expression. -/
def setAl : SelCol → String → SelCol
  | .colA c, a => .colA ⟨c.table, c.col, a⟩
  | .exprA args _ p i, a => .exprA args a p i
  | .noneV, _ => .noneV

/-- The default-alias loop of `freeze`: every still-unaliased select
expression receives `col<i>`, `i` counting over domain and codomain columns
jointly. -/
def fillAliases : List SelCol → Nat → List SelCol
  | [], _ => []
  | s :: rest, i =>
    (if selAl s = "" then setAl s ("col" ++ toString i) else s) :: fillAliases rest (i + 1)

/-- `QStruct.freeze`: mint `tmp<n>` from the threaded counter, snapshot the
plan body (with default column aliases, no children, no ordering) as a new
frozen child, and turn the plan itself into a passthrough over the temp
table.  `distinct` and `orderby` stay on the passthrough. -/
def freezeQ (q : QS) (n : Nat) : QS × Nat :=
  let tname := "tmp" ++ toString n
  let dom := fillAliases q.selectsdom 0
  let cod := fillAliases q.selectscod q.selectsdom.length
  let child : QS := .mk tname dom cod q.frm q.joins q.wheres q.groupbys []
    q.distinct none ""
  (.mk q.tablename (dom.map fun s => .colA ⟨tname, selAl s, ""⟩)
    (cod.map fun s => .colA ⟨tname, selAl s, ""⟩)
    (some ⟨tname, ""⟩) [] [] (.cols []) (q.frozen ++ [child]) q.distinct
    q.orderby q.orderdir, n + 1)

/-- A compiled sub-result: a plan, a `QProjection`, or a `QOperator`. -/
inductive CQ where
  | qs (q : QS)
  | qproj (dims : List Nat) (alldims : Nat)
  | qop (pre inf : String)

/-- The `FREEZE_ALL` optimization constant. -/
def FREEZE_ALL : Bool := false

/-- The `DEDUP_FROZEN` optimization constant. -/
def DEDUP_FROZEN : Bool := true

/-- Python truthiness of the `groupbys` attribute: a non-empty list or the
literal `True`. -/
def gbTruthy : GroupBys → Bool
  | .cols l => !l.isEmpty
  | .allAgg => true

/-- `freeze_qsts`: freeze every compiled `QStruct` whose grouping spec is
truthy or whose distinct flag is set (plus everything when `FREEZE_ALL`). -/
def freezeQsts : List CQ → Nat → List CQ × Nat
  | [], n => ([], n)
  | .qs q :: rest, n =>
    if FREEZE_ALL || gbTruthy q.groupbys || q.distinct then
      let p := freezeQ q n
      let r := freezeQsts rest p.2
      (.qs p.1 :: r.1, r.2)
    else
      let r := freezeQsts rest n
      (.qs q :: r.1, r.2)
  | c :: rest, n =>
    let r := freezeQsts rest n
    (c :: r.1, r.2)

/-- Exact-match table substitution on a `ColumnAlias`
(`Column.substitute_table`). -/
def substCA (old new : String) (c : CA) : CA :=
  if c.table = old then ⟨new, c.col, c.al⟩ else c

mutual

/-- `substitute_table` on a select expression (recurses into
`ExpressionAlias` arguments; the `None` placeholder would crash in Python
and is left unchanged). -/
def substSel (old new : String) : SelCol → SelCol
  | .colA c => .colA (substCA old new c)
  | .exprA args al p i => .exprA (substSelList old new args) al p i
  | .noneV => .noneV

/-- `substitute_table` mapped over `ExpressionAlias` arguments. -/
def substSelList (old new : String) : List SelCol → List SelCol
  | [] => []
  | s :: rest => substSel old new s :: substSelList old new rest

end

/-- The where-clause part of `QStruct.substitute_table`: the Python code
reads `.table` directly, so only plain column sides are rewritten
(an expression side would crash; left unchanged here). -/
def substWhereSide (old new : String) : SelCol → SelCol
  | .colA c => .colA (substCA old new c)
  | s => s

/-- `JoinSpec.substitute_table`: condition sides and the join's table (not
its alias) are substituted. -/
def substJoin (old new : String) (j : JoinSpec) : JoinSpec :=
  ⟨if j.table = old then new else j.table, j.al,
   j.conds.map fun c => ⟨substSel old new c.lhs, substSel old new c.rhs⟩⟩

/-- `CondList.is_trivially_true`: every condition renders identically on both
sides (vacuously true for an empty condition list). -/
def joinTrivTrue (j : JoinSpec) : Bool :=
  j.conds.all fun c => reprSel c.lhs == reprSel c.rhs

/-- `QStruct.substitute_table`: substitute in selects, source table, joins
(dropping substituted joins that became trivially true or duplicate),
where-conditions and grouping columns.  A `None` source table is left
unchanged (Python would raise there). -/
def substQ (old new : String) (q : QS) : QS :=
  .mk q.tablename (q.selectsdom.map (substSel old new))
    (q.selectscod.map (substSel old new))
    (q.frm.map fun f => if f.table = old then ⟨new, f.al⟩ else f)
    (q.joins.foldl (fun acc j =>
      let j2 := substJoin old new j
      if !(joinTrivTrue j2) &&
          acc.all (fun j3 => !(joinEq j2 j3) && reprCondList j2.conds != reprCondList j3.conds)
      then acc ++ [j2] else acc) [])
    (q.wheres.map fun c => ⟨substWhereSide old new c.lhs, substWhereSide old new c.rhs⟩)
    (match q.groupbys with
     | .cols l => .cols (l.map (substCA old new))
     | .allAgg => .allAgg)
    q.frozen q.distinct q.orderby q.orderdir

/-- The pending table renamings of the deduplication loop.  Python
substitutes eagerly into the not-yet-visited children; applying the
accumulated renamings lazily when a child is visited produces the same
element (each child receives exactly the renamings of the drops before it,
in order). -/
def applySubs (subs : List (String × String)) (q : QS) : QS :=
  subs.foldl (fun acc p => substQ p.1 p.2 acc) q

/-- The loop of `dedup_frozen`.  `tabs` holds the temp-table names of the
*original* children list: Python indexes `old_qsts[j]` with `j` taken from
the `queries` list of kept renderings, faithfully reproduced here. -/
def dedupGo (tabs : List String) (queries : List String) (kept : List QS)
    (root : QS) (subs : List (String × String)) : List QS → List QS × QS
  | [] => (kept, root)
  | q :: rest =>
    let q2 := applySubs subs q
    let r := reprQ q2
    match firstIdx r queries with
    | none => dedupGo tabs (queries ++ [r]) (kept ++ [q2]) root subs rest
    | some j =>
      let rep := tabs.getD j ""
      dedupGo tabs queries kept (substQ q2.tablename rep root)
        (subs ++ [(q2.tablename, rep)]) rest

/-- `QStruct.dedup_frozen`: render each frozen child, keep the first
occurrence of every rendering, and rewrite references to a dropped child's
temp table — in the remaining children and in the root — to the kept one. -/
def dedupFrozen (root : QS) : QS :=
  if DEDUP_FROZEN then
    let olds := root.frozen
    let p := dedupGo (olds.map QS.tablename) [] [] (root.withFrozen []) [] olds
    p.2.withFrozen p.1
  else root

/-! ## Per-operator lowering (`do_composition*`, `cmpl*` combine steps) -/

/-- Compilation errors: the typed "mixed projection" `SyntaxError` of
`cmplproduct`, and `crash` for every non-`farseer` Python exception
(AttributeError / IndexError / NameError / TypeError). -/
inductive CErr where
  | mixedProjection
  | crash
deriving DecidableEq, Repr

/-- Lift an `Option` (where `none` is a Python crash) into `Except CErr`. -/
def liftO : Option α → Except CErr α
  | some a => .ok a
  | none => .error .crash

/-- Extract the compiled plan; anything else crashes where Python would
access a `QStruct`-only attribute. -/
def asQS : CQ → Option QS
  | .qs q => some q
  | _ => none

/-- `get_column()` on a select expression: a `ColumnAlias` copied without its
alias; `ExpressionAlias` and the `None` placeholder have no `get_column`. -/
def getColumnSel : SelCol → Option CA
  | .colA c => some ⟨c.table, c.col, ""⟩
  | _ => none

/-- The full `ColumnAlias` behind a select expression (for attribute reads
that crash on expressions). -/
def getColA : SelCol → Option CA
  | .colA c => some c
  | _ => none

/-- The `.table` attribute of a select expression. -/
def selTable : SelCol → Option String
  | .colA c => some c.table
  | _ => none

/-- Python truthiness of the `orderby` attribute (`Name.__bool__` is
non-emptiness, `None` is falsy). -/
def obTruthy : Option String → Bool
  | none => false
  | some s => s ≠ ""

/-- `Column.replace_table`: a first-occurrence substring replacement inside
the column's table name. -/
def replaceTableCA (c : CA) (pat repl : String) : CA :=
  ⟨strReplaceFirst c.table pat repl, c.col, c.al⟩

/-- `replace_table` on a select expression; `ExpressionAlias` has no
`replace_table`, so Python crashes there. -/
def replaceTableSel (pat repl : String) : SelCol → Option SelCol
  | .colA c => some (.colA (replaceTableCA c pat repl))
  | _ => none

/-- `JoinSpec.replace_alias`: substring-replace the alias and both sides of
every condition. -/
def replaceAliasJoin (pat repl : String) (j : JoinSpec) : Option JoinSpec := do
  let conds ← mapMO (fun c => do
    let l ← replaceTableSel pat repl c.lhs
    let r ← replaceTableSel pat repl c.rhs
    pure (⟨l, r⟩ : Cond)) j.conds
  pure ⟨j.table, strReplaceFirst j.al pat repl, conds⟩

/-- `do_composition_one_dim`: plain composition with a one-column left
domain.  Synthesizes a join from the right plan's codomain into the left
plan's table unless the join is trivial, re-aliasing the left plan's
existing joins and codomain columns. -/
def doCompositionOneDim (lhs rhs : QS) : Option QS := do
  let ob := if obTruthy lhs.orderby then lhs.orderby else rhs.orderby
  let od := if obTruthy lhs.orderby then lhs.orderdir else rhs.orderdir
  match lhs.frm with
  | none => none
  | some lfrm =>
    if lfrm.table ≠ "" then do
      let jc0 ← rhs.selectscod.head?
      let joincod ← getColumnSel jc0
      let jd0 ← lhs.selectsdom.head?
      let joindom ← getColumnSel jd0
      let p : String × Option JoinSpec :=
        if reprCA joincod = reprCA joindom then
          (joincod.table, none)
        else if lfrm.table.take 3 = "tmp" then
          (lfrm.table, some ⟨lfrm.table, "", [⟨.colA joindom, .colA joincod⟩]⟩)
        else
          let al := joincod.table ++ "_" ++ joincod.col
          (al, some ⟨lfrm.table, al, [⟨.colA ⟨al, joindom.col, ""⟩, .colA joincod⟩]⟩)
      let lhsJoins ← mapMO (replaceAliasJoin lfrm.table p.1) lhs.joins
      let cods ← mapMO (replaceTableSel lfrm.table p.1) lhs.selectscod
      pure (mkQStruct rhs.selectsdom cods rhs.frm
        (rhs.joins ++ p.2.toList ++ lhsJoins) (lhs.wheres ++ rhs.wheres)
        (.cols []) (rhs.frozen ++ lhs.frozen) false ob od)
    else
      pure (mkQStruct rhs.selectsdom lhs.selectscod rhs.frm rhs.joins
        (lhs.wheres ++ rhs.wheres) (.cols []) (rhs.frozen ++ lhs.frozen)
        false ob od)

/-- `do_composition_multi_dim`: freeze both sides and join the two temp
tables on all paired domain/codomain columns. -/
def doCompositionMultiDim (lhs rhs : QS) (n : Nat) : Option (QS × Nat) := do
  let pl := freezeQ lhs n
  let pr := freezeQ rhs pl.2
  let lhs2 := pl.1
  let rhs2 := pr.1
  let conds ← mapMO (fun p => do
    let d ← getColumnSel p.1
    let c ← getColumnSel p.2
    pure (⟨.colA d, .colA c⟩ : Cond)) (List.zip lhs2.selectsdom rhs2.selectscod)
  let lfrm ← lhs2.frm
  pure (mkQStruct rhs2.selectsdom lhs2.selectscod rhs2.frm
    [⟨lfrm.table, "", conds⟩] [] (.cols []) (rhs2.frozen ++ lhs2.frozen) false
    (if obTruthy lhs2.orderby then lhs2.orderby else rhs2.orderby)
    (if obTruthy lhs2.orderby then lhs2.orderdir else rhs2.orderdir), pr.2)

/-- `do_composition_lhs_projection`: keep only the projected codomain
columns of the right plan; drop its ordering unless the reserved sort alias
survives the truncation. -/
def doCompositionLhsProjection (dims : List Nat) (rhs : QS) : Option QS := do
  let cods ← mapMO (fun i => rhs.selectscod.get? i) dims
  let dropOrd := cods.all fun c => selAl c ≠ "keyc"
  pure (.mk rhs.tablename rhs.selectsdom cods rhs.frm rhs.joins rhs.wheres
    rhs.groupbys rhs.frozen rhs.distinct
    (if dropOrd then none else rhs.orderby)
    (if dropOrd then "" else rhs.orderdir))

/-- The placeholder array of `do_composition_rhs_projection`:
`new_selectsdom[dim] = lhs.selectsdom[i]` over an all-`None` array. -/
def buildNewDom (alldims : Nat) (dims : List Nat) (src : List SelCol) :
    Option (List SelCol) :=
  go (List.replicate alldims SelCol.noneV) dims.enum
where
  go (arr : List SelCol) : List (Nat × Nat) → Option (List SelCol)
    | [] => some arr
    | (i, dim) :: rest => do
      let s ← src.get? i
      if dim < arr.length then go (arr.set dim s) rest else none

/-- `do_composition_rhs_projection`: pad the left plan's domain columns with
`None` placeholders at the unselected positions. -/
def doCompositionRhsProjection (lhs : QS) (dims : List Nat) (alldims : Nat) :
    Option QS := do
  let arr ← buildNewDom alldims dims lhs.selectsdom
  pure (.mk lhs.tablename arr lhs.selectscod lhs.frm lhs.joins lhs.wheres
    lhs.groupbys lhs.frozen lhs.distinct lhs.orderby lhs.orderdir)

/-- `do_composition_operator`: fold the right plan's codomain columns into
one computed expression; a column carrying the reserved sort alias hands it
to the expression, flipping the sort direction when the marked column was
the second operand. -/
def doCompositionOperator (pre inf : String) (rhs : QS) : Option QS := do
  let p ←
    if rhs.orderby.isSome then do
      let a0 ← rhs.selectscod.get? 0
      let ca0 ← getColA a0
      if ca0.col = "keyc" ∨ ca0.al = "keyc" then
        some (rhs.selectscod.set 0 (.colA ⟨ca0.table, ca0.col, ""⟩), "keyc",
          rhs.orderdir)
      else do
        let a1 ← rhs.selectscod.get? 1
        let ca1 ← getColA a1
        if ca1.col = "keyc" ∨ ca1.al = "keyc" then
          some (rhs.selectscod.set 1 (.colA ⟨ca1.table, ca1.col, ""⟩), "keyc",
            if rhs.orderdir = "asc" then "desc" else "asc")
        else
          some (rhs.selectscod, "", rhs.orderdir)
    else
      some (rhs.selectscod, "", rhs.orderdir)
  pure (.mk rhs.tablename rhs.selectsdom [.exprA p.1 p.2.1 pre inf] rhs.frm
    rhs.joins rhs.wheres rhs.groupbys rhs.frozen rhs.distinct rhs.orderby p.2.2)

/-- One binary step of `do_composition` (the branch dispatch on the last two
compiled operands). -/
def compPair (lhs rhs : CQ) (n : Nat) : Option (CQ × Nat) :=
  match rhs, lhs with
  | .qproj dims alldims, lhs => do
    let lq ← asQS lhs
    let q ← doCompositionRhsProjection lq dims alldims
    pure (.qs q, n)
  | rhs, .qproj dims _ => do
    let rq ← asQS rhs
    let q ← doCompositionLhsProjection dims rq
    pure (.qs q, n)
  | rhs, .qop pre inf => do
    let rq ← asQS rhs
    let q ← doCompositionOperator pre inf rq
    pure (.qs q, n)
  | rhs, .qs lq =>
    if lq.selectsdom.length = 1 then do
      let rq ← asQS rhs
      let q ← doCompositionOneDim lq rq
      pure (.qs q, n)
    else do
      let rq ← asQS rhs
      let p ← doCompositionMultiDim lq rq n
      pure (.qs p.1, p.2)

/-- The recursion of `do_composition` on the reversed operand list: the
current right-hand result is combined with each next operand to its left
(`A ∘ (B ∘ (C ∘ D))`). -/
def doCompRev : CQ → List CQ → Nat → Option (CQ × Nat)
  | acc, [], n => some (acc, n)
  | acc, lhs :: rest, n => do
    let p ← compPair lhs acc n
    doCompRev p.1 rest p.2

/-- `do_composition` (empty input models the `pop`-from-empty crash). -/
def doComposition (xs : List CQ) (n : Nat) : Option (CQ × Nat) :=
  match xs.reverse with
  | [] => none
  | r :: rest => doCompRev r rest n

/-- The projection branch of `cmplproduct`: concatenate the dimension lists,
failing with the "mixed projection" `SyntaxError` on a non-projection
factor. -/
def gatherDims : List CQ → Except CErr (List Nat)
  | [] => .ok []
  | .qproj d _ :: rest => (gatherDims rest).map (d ++ ·)
  | _ => .error .mixedProjection

/-- The `newjoins` ordered dictionary of `cmplproduct`, keyed by the joined
table; a repeated key accumulates conditions on the existing join. -/
def njUpsert (acc : List JoinSpec) (key : String) (c : Cond) : List JoinSpec :=
  if acc.any (·.table == key) then
    acc.map fun j => if j.table == key then ⟨j.table, j.al, j.conds ++ [c]⟩ else j
  else acc ++ [⟨key, "", [c]⟩]

/-- The per-factor join synthesis of `cmplproduct`: for every paired
non-placeholder domain column whose table differs from the first factor's,
add one equality condition keyed by the factor's table. -/
def prodJoinOne (dom0 : List SelCol) (acc : List JoinSpec)
    (qdoms : List SelCol) : Option (List JoinSpec) :=
  (List.zip qdoms dom0).foldlM (fun acc2 p =>
    match p.1, p.2 with
    | .noneV, _ => pure acc2
    | _, .noneV => pure acc2
    | qd, dm => do
      let tq ← selTable qd
      let td ← selTable dm
      if tq ≠ td then do
        let cd ← getColumnSel dm
        let cq ← getColumnSel qd
        pure (njUpsert acc2 tq ⟨.colA cd, .colA cq⟩)
      else pure acc2) acc

/-- The last-write-wins sort-column propagation of `cmplproduct`. -/
def prodOrder (qs : List QS) : Option String × String :=
  qs.foldl (fun acc q => if q.orderby.isSome then (q.orderby, q.orderdir) else acc)
    (none, "")

/-- `cmplproduct` after its arguments are compiled: either the all-projection
branch, or freeze-as-needed and merge the factors side by side. -/
def cmplproductCore (qsts : List CQ) (n : Nat) : Except CErr (CQ × Nat) :=
  match qsts with
  | [] => .error .crash
  | .qproj d0 all0 :: rest => do
    let ds ← gatherDims rest
    pure (.qproj (d0 ++ ds) all0, n)
  | _ => do
    let p := freezeQsts qsts n
    let fqs ← liftO (mapMO asQS p.1)
    match fqs with
    | [] => .error .crash
    | q0 :: restQ => do
      let njs ← liftO (restQ.foldlM
        (fun acc q => prodJoinOne q0.selectsdom acc q.selectsdom) [])
      let ord := prodOrder fqs
      pure (.qs (mkQStruct q0.selectsdom (fqs.flatMap QS.selectscod) q0.frm
        (njs ++ fqs.flatMap QS.joins) (fqs.flatMap QS.wheres) q0.groupbys
        (fqs.flatMap QS.frozen) false ord.1 ord.2), p.2)

/-- The paired equality conditions of `cmplinclusion` (even-indexed factor
against the following odd-indexed factor, codomain column by column). -/
def inclPairs : List QS → List Cond
  | q0 :: q1 :: rest =>
    (List.zip q0.selectscod q1.selectscod).map (fun p => ⟨p.1, p.2⟩)
      ++ inclPairs rest
  | _ => []

/-- `cmplinclusion` after its arguments are compiled. -/
def cmplinclusionCore (qsts : List CQ) (n : Nat) : Option (QS × Nat) := do
  let p := freezeQsts qsts n
  let fqs ← mapMO asQS p.1
  match fqs with
  | [] => none
  | q0 :: restQ => do
    let d0 ← q0.selectsdom.head?
    let t0 ← selTable d0
    let js ← restQ.foldlM (fun acc q => do
      let dq ← q.selectsdom.head?
      let tq ← selTable dq
      if tq ≠ t0 then do
        let c0 ← getColumnSel d0
        let cq ← getColumnSel dq
        pure (acc ++ [(⟨tq, "", [⟨.colA c0, .colA cq⟩]⟩ : JoinSpec)])
      else pure acc) []
    pure (mkQStruct q0.selectsdom q0.selectsdom q0.frm
      (js ++ fqs.flatMap QS.joins) (q0.wheres ++ inclPairs fqs) (.cols [])
      (fqs.flatMap QS.frozen) false none "", p.2)

/-- `cmplinverse` after its arguments are compiled: domain and codomain both
copy the inner codomain; `distinct` is set unconditionally. -/
def cmplinverseCore (qsts : List CQ) (n : Nat) : Option (QS × Nat) := do
  let p := freezeQsts qsts n
  let fqs ← mapMO asQS p.1
  match fqs with
  | [] => none
  | q0 :: _ =>
    pure (mkQStruct q0.selectscod q0.selectscod q0.frm q0.joins q0.wheres
      (.cols []) (fqs.flatMap QS.frozen) true q0.orderby q0.orderdir, p.2)

/-- The join-synthesis guard of `cmplaggregation` (the conditional
`JoinSpec` on the two sides' first domain columns; Python short-circuit
evaluation of the `and`-chain reproduced, including the crashes on missing
or expression-valued domain columns). -/
def aggJoin (q0 q1 : QS) : Option (Option JoinSpec) := do
  let s0 ← q0.selectsdom.head?
  let c0 ← getColA s0
  if c0.table = "" then some none
  else do
    let s1 ← q1.selectsdom.head?
    let c1 ← getColA s1
    if c1.table = "" then some none
    else if c0.table ≠ c1.table then
      some (some (⟨c0.table, "",
        [⟨.colA ⟨c0.table, c0.col, ""⟩, .colA ⟨c1.table, c1.col, ""⟩⟩]⟩ : JoinSpec))
    else some none

/-- The `SUM(...)` wrapping of one value column
(`ExpressionAlias([s.get_column()], alias=s.alias, infix="%s", prefix="SUM")`). -/
def sumWrap (c : CA) : SelCol := .exprA [.colA ⟨c.table, c.col, ""⟩] c.al "SUM" "%s"

/-- The combine step of `cmplaggregation` (continued): SUM-wrapped value
columns, group-side domain, grouping by table-carrying group columns. -/
def aggCombine (q0 q1 : QS) (rest : List QS) : Option QS := do
  let joinOpt ← aggJoin q0 q1
  let sums ← mapMO (fun s => (getColA s).map sumWrap) q0.selectscod
  let gcas ← mapMO getColA q1.selectscod
  let gcols := (gcas.filter fun c => c.table ≠ "").map fun c => (⟨c.table, c.col, ""⟩ : CA)
  pure (mkQStruct q1.selectscod sums q1.frm
      (joinOpt.toList ++ q0.joins ++ q1.joins) (q0.wheres ++ q1.wheres)
      (if gcols.isEmpty then .allAgg else .cols gcols)
      ((q0 :: q1 :: rest).flatMap QS.frozen) false q0.orderby q0.orderdir)

/-- `cmplaggregation` after its arguments are compiled: `freeze_qsts`, then
the combine step. -/
def cmplaggregationCore (qsts : List CQ) (n : Nat) : Option (QS × Nat) := do
  let p := freezeQsts qsts n
  let fqs ← mapMO asQS p.1
  match fqs with
  | q0 :: q1 :: restQ => do
    let r ← aggCombine q0 q1 restQ
    pure (r, p.2)
  | _ => none

/-! ## The term algebra (`trm.py`, `knd.py`) -/

/-- The concrete `Kind` subclasses of `knd.py` (the class names checked by
`Kind.equals`). -/
inductive KVariant where
  | objectType | phenomenon | objectTypeRelation | variable | datasetDesign
  | quantity | measure | unit | codeList | level | representation
  | objectTypeInclusion | datasetDescription | phenomenonMeasureMapping
  | measureRepresentationMapping | constant | one | operator
deriving DecidableEq, Repr

/-- The `Operation` singletons of `trm.py`. -/
inductive Op where
  | composition | product | cartesianProduct | inclusion | selection
  | functionalType | alpha | inverse | rnge | projection
deriving DecidableEq, Repr

/-- The `name` attribute of each operation singleton. -/
def opName : Op → String
  | .composition => "composition"
  | .product => "product"
  | .cartesianProduct => "Cartesian product"
  | .inclusion => "inclusion"
  | .selection => "selection"
  | .functionalType => "functional type"
  | .alpha => "aggregation"
  | .inverse => "inverse"
  | .rnge => "range"
  | .projection => "projection"

/-- Whether the operation's `kind` attribute is `'element'` (its `kindix`
constructor argument in `trm.py`). -/
def opKindElement : Op → Bool
  | .composition | .product | .inclusion | .alpha | .inverse | .projection => true
  | .cartesianProduct | .selection | .functionalType | .rnge => false

/-- A Python `Term`.  `typeK`/`elemK` are `Kind` instances (carrying the
concrete class, name, identity token, and — for elements — the domain,
codomain and the `Constant.code` attribute); `gapT`/`gapE` are `Gap`
instances of kind `'type'` / `'element'`; `app` is an `Application`;
`intLit` models the plain Python integers that appear in a projection's
argument list. -/
inductive Term where
  | typeK (v : KVariant) (name : String) (id : Nat)
  | elemK (v : KVariant) (name : String) (id : Nat) (domain codomain : Term)
      (code : Option String)
  | gapT (name : String) (id : Nat)
  | gapE (name : String) (id : Nat) (domain codomain : Term)
  | app (op : Op) (args : List Term)
  | intLit (n : Int)

mutual

/-- Syntactic (structural) equality of terms, the value-level proxy for
Python object identity in `list.index` (identical objects are structurally
equal; structurally distinct objects are never identical). -/
def beqTerm : Term → Term → Bool
  | .typeK v n i, .typeK v2 n2 i2 => v == v2 && n == n2 && i == i2
  | .elemK v n i d c cd, .elemK v2 n2 i2 d2 c2 cd2 =>
    v == v2 && n == n2 && i == i2 && beqTerm d d2 && beqTerm c c2 && cd == cd2
  | .gapT n i, .gapT n2 i2 => n == n2 && i == i2
  | .gapE n i d c, .gapE n2 i2 d2 c2 =>
    n == n2 && i == i2 && beqTerm d d2 && beqTerm c c2
  | .app o a, .app o2 a2 => o == o2 && beqTermList a a2
  | .intLit n, .intLit n2 => n == n2
  | _, _ => false

/-- Syntactic equality on argument lists. -/
def beqTermList : List Term → List Term → Bool
  | [], [] => true
  | a :: as2, b :: bs => beqTerm a b && beqTermList as2 bs
  | _, _ => false

end

/-- The `kind` attribute (`'type'` or `'element'`); `none` models the
`AttributeError` of reading `.kind` on a plain integer. -/
def kindStr : Term → Option String
  | .typeK .. => some "type"
  | .elemK .. => some "element"
  | .gapT .. => some "type"
  | .gapE .. => some "element"
  | .app op _ => some (if opKindElement op then "element" else "type")
  | .intLit _ => none

/-- The `name` attribute; `none` where Python has no such attribute
(`Application`, integers). -/
def termNameOf : Term → Option String
  | .typeK _ n _ => some n
  | .elemK _ n _ _ _ _ => some n
  | .gapT n _ => some n
  | .gapE n _ _ _ => some n
  | _ => none

/-- Whether the term is an instance of a concrete `Kind` subclass (the class
list of `Kind.equals`). -/
def isConcreteKind : Term → Bool
  | .typeK .. => true
  | .elemK .. => true
  | _ => false

/-- The identity token of a `Kind` or `Gap`. -/
def termId : Term → Option Nat
  | .typeK _ _ i => some i
  | .elemK _ _ i _ _ _ => some i
  | .gapT _ i => some i
  | .gapE _ i _ _ => some i
  | _ => none

mutual

/-- `equals`: dispatched on the receiver — `Kind.equals` (membership of the
other's class in the concrete-Kind list plus id equality), `Gap.equals`
(other is a `Gap` with the same id), `Application.equals` (same operation
name, same argument count, pairwise-equal arguments).  A plain integer has
no `equals` (Python would raise); modelled `false`. -/
def equalsTerm : Term → Term → Bool
  | .typeK _ _ i, u => isConcreteKind u && termId u == some i
  | .elemK _ _ i _ _ _, u => isConcreteKind u && termId u == some i
  | .gapT _ i, u =>
    (match u with
     | .gapT _ j => i == j
     | .gapE _ j _ _ => i == j
     | _ => false)
  | .gapE _ i _ _, u =>
    (match u with
     | .gapT _ j => i == j
     | .gapE _ j _ _ => i == j
     | _ => false)
  | .app o args, u =>
    (match u with
     | .app o2 args2 =>
       opName o == opName o2 && args.length == args2.length
         && argsEqLoop args args2
     | _ => false)
  | .intLit _, _ => false
termination_by t u => sizeOf t + sizeOf u
decreasing_by all_goals (simp_wf; omega)

/-- The argument loop of `Application.equals` over `(self.args, term.args)`:
integer arguments are compared by value, term arguments recursively (the
inner receiver is the *other* term's argument, as in the source). -/
def argsEqLoop : List Term → List Term → Bool
  | [], [] => true
  | sa :: ss, ta :: ts =>
    (match ta, sa with
     | .intLit tv, .intLit sv => tv == sv && argsEqLoop ss ts
     | .intLit _, _ => false
     | _, .intLit _ => false
     | tt, st => equalsTerm tt st && argsEqLoop ss ts)
  | _, _ => false
termination_by s t => sizeOf s + sizeOf t
decreasing_by all_goals (simp_wf; omega)

end

mutual

/-- The derived functional type of a term, as the pair
`(.type.args[0], .type.args[1])` — the domain and codomain.  `none` models a
`None` type attribute (types, type-kind applications) or a crash while
deriving.  For applications this reproduces the `getreturntype`
implementations of `trm.py`. -/
def typeDC : Term → Option (Term × Term)
  | .typeK .. => none
  | .elemK _ _ _ d c _ => some (d, c)
  | .gapT .. => none
  | .gapE _ _ d c => some (d, c)
  | .intLit _ => none
  | .app op args =>
    let ats := typeDCList args
    match op with
    | .composition => do
      let lo ← ats.getLast?
      let p ← lo
      let ho ← ats.head?
      let p2 ← ho
      pure (p.1, p2.2)
    | .product => do
      let ho ← ats.head?
      let p ← ho
      let cods ← mapMO (fun o => o.map Prod.snd) ats
      pure (p.1, .app .cartesianProduct cods)
    | .inclusion => do
      let ho ← ats.head?
      let p ← ho
      pure (.app .selection args, p.1)
    | .alpha => do
      let o1 ← ats.get? 1
      let p1 ← o1
      let o0 ← ats.get? 0
      let p0 ← o0
      pure (p1.2, p0.2)
    | .inverse => do
      let o0 ← ats.head?
      let p0 ← o0
      pure (.app .rnge args, p0.2)
    | .projection => do
      let lt ← args.getLast?
      match lt with
      | .intLit k =>
        if k < 1 then none
        else do
          let el ← args.get? (k - 1).toNat
          pure (.app .cartesianProduct args.dropLast, el)
      | _ => none
    | _ => none

/-- The derived types of an argument list. -/
def typeDCList : List Term → List (Option (Term × Term))
  | [] => []
  | t :: rest => typeDC t :: typeDCList rest

end

/-- The element-kind loop shared by several constraint checks: `False` on
the first non-element argument, crash on an integer. -/
def checkElementsLoop : List Term → Option Bool
  | [] => some true
  | a :: rest =>
    match kindStr a with
    | none => none
    | some k => if k ≠ "element" then some false else checkElementsLoop rest

/-- The type-kind loop of `CartesianProduct` / `Projection` constraint
checks. -/
def checkTypesLoop : List Term → Option Bool
  | [] => some true
  | a :: rest =>
    match kindStr a with
    | none => none
    | some k => if k ≠ "type" then some false else checkTypesLoop rest

/-- `reduce(Composition.consecutive, args)`: the accumulator becomes `None`
at the first non-chaining pair and stays `None`. -/
def chainFold (acc : Option Term) : List Term → Option (Option Term)
  | [] => some acc
  | t :: rest =>
    match acc with
    | none => chainFold none rest
    | some a => do
      let pa ← typeDC a
      let pt ← typeDC t
      if equalsTerm pa.1 pt.2 then chainFold (some t) rest else chainFold none rest

/-- The kind-and-common-domain loop of `Product` / `Inclusion` constraint
checks (receiver of the inner `equals` is the argument's domain). -/
def domLoop (d0 : Term) : List Term → Option Bool
  | [] => some true
  | a :: rest => do
    let k ← kindStr a
    if k ≠ "element" then pure false
    else do
      let pa ← typeDC a
      if !equalsTerm pa.1 d0 then pure false else domLoop d0 rest

/-- First index of a term in an argument list.  Python `list.index` compares
by object identity here; structural equality is the value-level proxy
(identical objects are structurally equal, and structurally distinct
objects are never identical). -/
def firstIdxTerm (a : Term) : List Term → Option Nat
  | [] => none
  | t :: rest => if beqTerm t a then some 0 else (firstIdxTerm a rest).map (· + 1)

/-- The paired-codomain loop of the `Inclusion` constraint check: an
argument whose first occurrence sits at an even index must share its
codomain with the following argument. -/
def inclPairLoop (all : List Term) : List Term → Option Bool
  | [] => some true
  | a :: rest =>
    match firstIdxTerm a all with
    | none => none
    | some i =>
      if i % 2 = 0 then do
        let pa ← typeDC a
        match all.get? (i + 1) with
        | none => none
        | some b => do
          let pb ← typeDC b
          if !equalsTerm pa.2 pb.2 then pure false else inclPairLoop all rest
      else inclPairLoop all rest

/-- The shared `Inclusion`/`Selection` constraint check. -/
def inclusionCheck (args : List Term) : Option Bool :=
  if args.length < 2 then some false
  else if args.length % 2 ≠ 0 then some false
  else do
    let a0 ← args.head?
    let p0 ← typeDC a0
    let b ← domLoop p0.1 args
    if !b then pure false else inclPairLoop args args

/-- The shared `Inverse`/`Range` constraint check. -/
def inverseCheck (args : List Term) : Option Bool :=
  match args with
  | [a] => do
    let k ← kindStr a
    pure (k == "element")
  | _ => some false

/-- `checkapplicationconstraints` for every operation, `none` modelling a
Python crash while evaluating the check. -/
def checkConstraints : Op → List Term → Option Bool
  | .composition, args =>
    if args.length < 2 then some false
    else do
      let b ← checkElementsLoop args
      if !b then pure false
      else
        match args with
        | [] => none
        | a0 :: rest => do
          let fin ← chainFold (some a0) rest
          pure fin.isSome
  | .product, args =>
    if args.length < 2 then some false
    else do
      let a0 ← args.head?
      let p0 ← typeDC a0
      domLoop p0.1 args
  | .cartesianProduct, args =>
    if args.length < 2 then some false else checkTypesLoop args
  | .inclusion, args => inclusionCheck args
  | .selection, args => inclusionCheck args
  | .functionalType, args =>
    match args with
    | [a, b] => do
      let ka ← kindStr a
      if ka ≠ "type" then pure false
      else do
        let kb ← kindStr b
        pure (kb == "type")
    | _ => some false
  | .alpha, args =>
    if args.length ≠ 2 then some false
    else do
      let b ← checkElementsLoop args
      if !b then pure false
      else do
        let a0 ← args.get? 0
        let a1 ← args.get? 1
        let p0 ← typeDC a0
        let p1 ← typeDC a1
        pure (equalsTerm p0.1 p1.1)
  | .inverse, args => inverseCheck args
  | .rnge, args => inverseCheck args
  | .projection, args =>
    if args.length < 3 then some false
    else do
      let b ← checkTypesLoop args.dropLast
      if !b then pure false
      else
        match args.getLast? with
        | some (.intLit k) => pure (1 ≤ k && k ≤ (args.length : Int) - 1)
        | some _ => pure false
        | none => none

/-- The result of `Application.__init__`: the term, a raised
`InvalidApplication` (with the operation and arguments it was raised for),
or a non-`farseer` crash. -/
inductive BuildRes where
  | ok (t : Term)
  | invalidApplication (op : Op) (args : List Term)
  | pyCrash

/-- `Application.__init__` for the operations whose `getreturntype` is the
base implementation (returns `None`): check the constraints, then build.
The element-kind `getreturntype`s only ever construct applications of such
operations, so the derivation below bottoms out here. -/
def mkTypeApp (op : Op) (args : List Term) : BuildRes :=
  match checkConstraints op args with
  | none => .pyCrash
  | some false => .invalidApplication op args
  | some true => .ok (.app op args)

/-- The result of `op.getreturntype(args)`: the derived type (`none` for
type-kind operations), or a failure raised/crashed while deriving. -/
inductive DeriveRes where
  | ok (t : Option Term)
  | invalidApplication (op : Op) (args : List Term)
  | pyCrash

/-- Injection of an inner application build into a derivation result. -/
def toDerive : BuildRes → DeriveRes
  | .ok t => .ok (some t)
  | .invalidApplication o a => .invalidApplication o a
  | .pyCrash => .pyCrash

/-- `op.getreturntype(args)` for every operation, following the evaluation
order of the source (inner `Application` constructions may raise). -/
def deriveType (op : Op) (args : List Term) : DeriveRes :=
  match op with
  | .composition =>
    match (do
      let la ← args.getLast?
      let pl ← typeDC la
      let ha ← args.head?
      let ph ← typeDC ha
      pure (pl.1, ph.2) : Option (Term × Term)) with
    | none => .pyCrash
    | some p => toDerive (mkTypeApp .functionalType [p.1, p.2])
  | .product =>
    match mapMO (fun a => (typeDC a).map Prod.snd) args with
    | none => .pyCrash
    | some cods =>
      match mkTypeApp .cartesianProduct cods with
      | .invalidApplication o a => .invalidApplication o a
      | .pyCrash => .pyCrash
      | .ok t1 =>
        match (do
          let a0 ← args.head?
          let p0 ← typeDC a0
          pure p0.1 : Option Term) with
        | none => .pyCrash
        | some d0 => toDerive (mkTypeApp .functionalType [d0, t1])
  | .inclusion =>
    match mkTypeApp .selection args with
    | .invalidApplication o a => .invalidApplication o a
    | .pyCrash => .pyCrash
    | .ok t1 =>
      match (do
        let a0 ← args.head?
        let p0 ← typeDC a0
        pure p0.1 : Option Term) with
      | none => .pyCrash
      | some d0 => toDerive (mkTypeApp .functionalType [t1, d0])
  | .alpha =>
    match (do
      let a1 ← args.get? 1
      let p1 ← typeDC a1
      let a0 ← args.get? 0
      let p0 ← typeDC a0
      pure (p1.2, p0.2) : Option (Term × Term)) with
    | none => .pyCrash
    | some p => toDerive (mkTypeApp .functionalType [p.1, p.2])
  | .inverse =>
    match mkTypeApp .rnge args with
    | .invalidApplication o a => .invalidApplication o a
    | .pyCrash => .pyCrash
    | .ok t1 =>
      match (do
        let a0 ← args.head?
        let p0 ← typeDC a0
        pure p0.2 : Option Term) with
      | none => .pyCrash
      | some c0 => toDerive (mkTypeApp .functionalType [t1, c0])
  | .projection =>
    match mkTypeApp .cartesianProduct args.dropLast with
    | .invalidApplication o a => .invalidApplication o a
    | .pyCrash => .pyCrash
    | .ok t1 =>
      match args.getLast? with
      | some (.intLit k) =>
        if k < 1 then .pyCrash
        else
          match args.get? (k - 1).toNat with
          | none => .pyCrash
          | some el => toDerive (mkTypeApp .functionalType [t1, el])
      | _ => .pyCrash
  | _ => .ok none

/-- `Application.__init__`: check the operation's constraints (raising
`InvalidApplication` on `False`), then derive and cache the return type
(inner constructions may raise their own `InvalidApplication`). -/
def mkApplication (op : Op) (args : List Term) : BuildRes :=
  match checkConstraints op args with
  | none => .pyCrash
  | some false => .invalidApplication op args
  | some true =>
    match deriveType op args with
    | .ok _ => .ok (.app op args)
    | .invalidApplication o a => .invalidApplication o a
    | .pyCrash => .pyCrash

/-- Whether the term's `kind` attribute is `'type'`. -/
def isTypeKind (t : Term) : Bool := kindStr t == some "type"

mutual

/-- Well-formedness, the invariant the public `Kind`/`Gap`/`Application`
constructors maintain: every element carries a functional type whose domain
and codomain are of kind `'type'`.  (`Type.__init__`/`Element.__init__`
raise `InvalidKind` otherwise, and a `Gap` of kind element requires a
`functional type` application.) -/
def wfT : Term → Bool
  | .typeK .. => true
  | .elemK _ _ _ d c _ => isTypeKind d && isTypeKind c
  | .gapT .. => true
  | .gapE _ _ d c => isTypeKind d && isTypeKind c
  | .intLit _ => true
  | .app op args =>
    wfTList args &&
      (!opKindElement op ||
        (match typeDC (.app op args) with
         | some p => isTypeKind p.1 && isTypeKind p.2
         | none => false))

/-- Well-formedness of an argument list. -/
def wfTList : List Term → Bool
  | [] => true
  | t :: rest => wfT t && wfTList rest

end

/-! ## Catalogue lookup and the leaf compilers -/

/-- A table design of the schema catalogue: a `DatasetDesign` naming the
physical relation (its `repr` is its name) with its construction term. -/
structure Design where
  name : String
  constr : Term

mutual

/-- `foundsome`: depth-first search of a construction term for a `Variable`,
`Constant` or `ObjectTypeRelation` (exact class) with the given name. -/
def foundsome (nm : String) : Term → Bool
  | .app _ args => foundsomeList nm args
  | .elemK v n _ _ _ _ =>
    (v == .variable || v == .constant || v == .objectTypeRelation) && n == nm
  | _ => false

/-- Depth-first search over the argument list. -/
def foundsomeList (nm : String) : List Term → Bool
  | [] => false
  | t :: rest => foundsome nm t || foundsomeList nm rest

end

/-- `findtable`: the first design whose construction contains the name. -/
def findtable (data : List Design) (nm : String) : Option Design :=
  data.find? fun d => foundsome nm d.constr

/-- `re.sub(' ', '_', name)`. -/
def subSpaces (s : String) : String :=
  String.mk (s.data.map fun c => if c = ' ' then '_' else c)

/-- The table-name string used by the leaf compilers: the found design's
name, or `"None"` (`f-string` of Python `None`) when the lookup fails. -/
def tableNameFor (data : List Design) (nm : String) : String :=
  ((findtable data nm).map Design.name).getD "None"

/-- `cmplobjecttyperelation` (also reached by `ObjectTypeInclusion` through
`isinstance`): select the owning table's identifier as domain and the
relation's column as codomain.  The table is looked up under the
space-substituted name. -/
def cmplobjecttyperelation (data : List Design) (nm : String) : QS :=
  let name := subSpaces nm
  let tbl := tableNameFor data name
  mkQStruct [.colA ⟨tbl, tbl ++ "_id", ""⟩] [.colA ⟨tbl, name, ""⟩]
    (some ⟨tbl, ""⟩) [] [] (.cols []) [] false none ""

/-- `cmplimmediate`: emit the literal `'*'` (codomain `"1"`) or `1` (name
starting `een`), with the owning object type's table and identifier when the
domain is an `ObjectType`, and an empty domain otherwise.  `none` models the
unbound-`imm` `NameError` of any other call. -/
def cmplimmediate (t : Term) (var : Option Term) (order : String) : Option QS :=
  match t with
  | .elemK _ nm _ dom cod _ => do
    let codName ← termNameOf cod
    let imm ←
      if codName = "1" then some (sq ++ "*" ++ sq)
      else if nm.take 3 = "een" then some "1"
      else none
    let p : Option TableAlias × List SelCol :=
      match dom with
      | .typeK .objectType dn _ =>
        (some ⟨dn, ""⟩, [.colA ⟨dn, dn ++ "_id", ""⟩])
      | _ => (none, [])
    let isSort := match var with | some v => equalsTerm v t | none => false
    pure (mkQStruct p.2 [.colA ⟨"", imm, if isSort then "keyc" else ""⟩] p.1
      [] [] (.cols []) [] false (if isSort then some "keyc" else none) order)
  | _ => none

/-- `cmplvariable`: dispatch to the immediate path exactly when the
codomain's name is the string `"1"` or the variable's own name starts with
`"een"`; otherwise select the owning table's identifier and the variable's
column, aliasing the codomain as the reserved sort key when this variable is
the designated sort element.  (The table lookup uses the raw name; the
column name is space-substituted.) -/
def cmplvariable (data : List Design) (t : Term) (var : Option Term)
    (order : String) : Option QS :=
  match t with
  | .elemK .variable nm _ _ cod _ => do
    let codName ← termNameOf cod
    if codName = "1" ∨ nm.take 3 = "een" then cmplimmediate t var order
    else
      let tbl := tableNameFor data nm
      let name := subSpaces nm
      let isSort := match var with | some v => equalsTerm v t | none => false
      pure (mkQStruct [.colA ⟨tbl, tbl ++ "_id", ""⟩]
        [.colA ⟨tbl, name, if isSort then "keyc" else ""⟩] (some ⟨tbl, ""⟩)
        [] [] (.cols []) [] false (if isSort then some "keyc" else none) order)
  | _ => none

/-- `cmplconstant`: literal `'*'` domain and quoted `code` codomain over an
empty table reference (`none` models the crash on a code-less constant). -/
def cmplconstant (t : Term) : Option QS :=
  match t with
  | .elemK .constant _ _ _ _ code => do
    let c ← code
    let name := subSpaces c
    pure (mkQStruct [.colA ⟨"", sq ++ "*" ++ sq, ""⟩]
      [.colA ⟨"", sq ++ name ++ sq, ""⟩] (some ⟨"", ""⟩) [] [] (.cols [])
      [] false none "")
  | _ => none

/-- `cmploperator`: the decimal-safe division template for the `(/)`
operator; every other operator name returns Python `None` (a crash at the
caller, collapsed here). -/
def cmploperator (t : Term) : Option CQ :=
  match t with
  | .elemK .operator nm _ _ _ _ =>
    if nm = "(/)" then some (.qop "" "(1.0 * %s) / %s") else none
  | _ => none

mutual

/-- `count_args`: the number of leaves of a (possibly `Product`-nested)
argument (`hasattr(arg, "args")` is true exactly of applications). -/
def countArgs : Term → Nat
  | .app _ args => countArgsList args
  | _ => 1

/-- The flattened leaf count of an argument list. -/
def countArgsList : List Term → Nat
  | [] => 0
  | t :: rest => countArgs t + countArgsList rest

end

/-- `cmplprojection`: resolve the 1-based "pick the k-th flattened
component" integer into the absolute dimension range, with the flattened
total as `all_dimensions`.  `none` models the unbound-`proj_list`
`NameError` (out-of-range k) and the `TypeError`/`IndexError` of a
non-integer or missing last argument. -/
def cmplprojection (args : List Term) : Option CQ :=
  match args.getLast? with
  | some (.intLit k) =>
    let sizes := args.dropLast.map countArgs
    if 1 ≤ k ∧ k ≤ (sizes.length : Int) then
      let i := (k - 1).toNat
      some (.qproj (List.range' ((sizes.take i).sum) (sizes.getD i 0)) sizes.sum)
    else none
  | _ => none

mutual

/-- `do_cmpl`: dispatch on the term's application operator or concrete
variant.  The sorts the source does not handle return Python `None`, which
crashes at the first attribute access in every caller — collapsed to
`crash`. -/
def do_cmpl (data : List Design) (t : Term) (var : Option Term)
    (order : String) (n : Nat) : Except CErr (CQ × Nat) :=
  match t with
  | .app op args =>
    (match op with
     | .composition => do
       let p ← cmplArgs data args var order n
       let f := freezeQsts p.1 p.2
       liftO (doComposition f.1 f.2)
     | .product => do
       let p ← cmplArgs data args var order n
       cmplproductCore p.1 p.2
     | .inclusion => do
       let p ← cmplArgs data args var order n
       liftO ((cmplinclusionCore p.1 p.2).map fun r => (CQ.qs r.1, r.2))
     | .inverse => do
       let p ← cmplArgs data args var order n
       liftO ((cmplinverseCore p.1 p.2).map fun r => (CQ.qs r.1, r.2))
     | .alpha => do
       let p ← cmplArgs data args var order n
       liftO ((cmplaggregationCore p.1 p.2).map fun r => (CQ.qs r.1, r.2))
     | .projection => liftO ((cmplprojection args).map (·, n))
     | _ => .error .crash)
  | .elemK .variable _ _ _ _ _ =>
    liftO ((cmplvariable data t var order).map fun q => (CQ.qs q, n))
  | .elemK .objectTypeRelation nm _ _ _ _ =>
    .ok (.qs (cmplobjecttyperelation data nm), n)
  | .elemK .objectTypeInclusion nm _ _ _ _ =>
    .ok (.qs (cmplobjecttyperelation data nm), n)
  | .elemK .constant _ _ _ _ _ =>
    liftO ((cmplconstant t).map fun q => (CQ.qs q, n))
  | .elemK .operator _ _ _ _ _ =>
    liftO ((cmploperator t).map (·, n))
  | _ => .error .crash

/-- The argument loop shared by the `cmpl*` compilers. -/
def cmplArgs (data : List Design) : List Term → Option Term → String → Nat →
    Except CErr (List CQ × Nat)
  | [], _, _, n => .ok ([], n)
  | a :: rest, var, order, n => do
    let p ← do_cmpl data a var order n
    let q ← cmplArgs data rest var order p.2
    pure (p.1 :: q.1, q.2)

end

/-- `cmpl`: reset the temp-table counter, lower the term, deduplicate the
materialized children.  (A projection or operator descriptor at top level
has no `dedup_frozen`: a crash.) -/
def cmpl (data : List Design) (t : Term) (var : Option Term) (order : String) :
    Except CErr QS :=
  match do_cmpl data t var order 0 with
  | .ok (.qs q, _) => .ok (dedupFrozen q)
  | .ok _ => .error .crash
  | .error e => .error e

/-! ## Derived decomposition of the renderer (used to state the row-cap
theorem) -/

/-- Everything `gen_sql` emits before the `ORDER BY`/row-cap fragment:
children, `create_str`, the `SELECT` head with `distinct` and `topstr`, and
the middle fragment. -/
def genSqlPre (q : QS) (d : Dialect) (ct : Bool) : Option String := do
  let kids ← genSqlKids q.frozen d
  let mid ← genSqlMid q d ct
  pure (kids ++ createStr q d ct
    ++ "SELECT " ++ (if q.distinct then "DISTINCT " else "") ++ topStr q d ++ mid)

/-- The `ORDER BY` marker. -/
def ordPat : List Char := "ORDER BY".data

/-- The MySQL row-cap marker. -/
def limPat : List Char := " LIMIT 5".data

/-- The T-SQL row-cap marker. -/
def topPat : List Char := "TOP 5 ".data

/-! ## Concrete example data (scenario catalogue and plans) -/

/-- The numeric codomain type of the scenario catalogue. -/
def numberT : Term := .typeK .quantity "number" 100

/-- The `Person` object type. -/
def personT : Term := .typeK .objectType "person" 101

/-- The `Address` object type. -/
def addressT : Term := .typeK .objectType "address" 102

/-- `income : Person → Number`. -/
def income : Term := .elemK .variable "income" 110 personT numberT none

/-- `lives_at : Person → Address`. -/
def livesAt : Term := .elemK .objectTypeRelation "lives_at" 111 personT addressT none

/-- The person table's identifier column. -/
def personIdV : Term := .elemK .variable "person_id" 112 personT numberT none

/-- The address table's identifier column. -/
def addressIdV : Term := .elemK .variable "address_id" 113 addressT numberT none

/-- The person table design: identifier `person_id`, carrying `lives_at` and
`income`. -/
def personDesign : Design := ⟨"person", .app .product [personIdV, livesAt, income]⟩

/-- The address table design: identifier `address_id`. -/
def addressDesign : Design := ⟨"address", .app .product [addressIdV, addressIdV]⟩

/-- The scenario catalogue. -/
def cat4 : List Design := [personDesign, addressDesign]

/-- The term `income ∘ lives_at` (arguments in the source's reverse
order). -/
def c4term : Term := .app .composition [income, livesAt]

/-- A compiled value plan: `person.income` over the person table, no
grouping, not distinct. -/
def exQ0 : QS := mkQStruct [.colA ⟨"person", "person_id", ""⟩]
  [.colA ⟨"person", "income", ""⟩] (some ⟨"person", ""⟩) [] [] (.cols []) []
  false none ""

/-- A compiled group plan: `person.resident_of` over the person table
(domain-column `person.person_id`, codomain-column `person.resident_of`). -/
def exQ1 : QS := mkQStruct [.colA ⟨"person", "person_id", ""⟩]
  [.colA ⟨"person", "resident_of", ""⟩] (some ⟨"person", ""⟩) [] [] (.cols [])
  [] false none ""

/-- A plain single-table plan used to seed the freeze examples. -/
def exPlain : QS := mkQStruct [.colA ⟨"person", "person_id", ""⟩]
  [.colA ⟨"person", "income", ""⟩] (some ⟨"person", ""⟩) [] [] (.cols []) []
  false none ""

/-- An ordered plan carrying the reserved sort key (a ranking query). -/
def exOrdered : QS := .mk "" [.colA ⟨"person", "person_id", ""⟩]
  [.colA ⟨"person", "income", "keyc"⟩] (some ⟨"person", ""⟩) [] [] (.cols [])
  [] false (some "keyc") "desc"

/-- Gap types and elements replaying the examples at the bottom of
`trm.py`, used to exercise the application constraints. -/
def gapC : Term := .gapT "c" 200

/-- A second gap type. -/
def gapE2 : Term := .gapT "e" 201

/-- A third gap type. -/
def gapF : Term := .gapT "f" 202

/-- `y : c → e`. -/
def gapY : Term := .gapE "y" 210 gapC gapE2

/-- `z : e → f`. -/
def gapZ : Term := .gapE "z" 211 gapE2 gapF

/-- Whether a compiled sub-result is a projection descriptor. -/
def isProjCQ : CQ → Bool
  | .qproj _ _ => true
  | _ => false

/-- The concrete aggregation of `exQ0` by `exQ1` (witness data). -/
def c2res : QS := (aggCombine exQ0 exQ1 []).getD exQ0

/-! # Theorems -/

/-- `freeze_qsts` on an aggregation's two compiled inputs: each input is
frozen exactly when its grouping spec is truthy or its distinct flag is set,
minting one temp table per frozen input. -/
theorem freezeQsts_pair (q0 q1 : QS) (n : ℕ) :
    freezeQsts [.qs q0, .qs q1] n =
      if gbTruthy q0.groupbys || q0.distinct then
        if gbTruthy q1.groupbys || q1.distinct then
          ([.qs (freezeQ q0 n).1, .qs (freezeQ q1 (n + 1)).1], n + 2)
        else ([.qs (freezeQ q0 n).1, .qs q1], n + 1)
      else
        if gbTruthy q1.groupbys || q1.distinct then
          ([.qs q0, .qs (freezeQ q1 n).1], n + 1)
        else ([.qs q0, .qs q1], n) := by
  by_cases h0 : (gbTruthy q0.groupbys || q0.distinct) = true <;>
    by_cases h1 : (gbTruthy q1.groupbys || q1.distinct) = true <;>
    simp [freezeQsts, FREEZE_ALL, h0, h1, freezeQ]

/-- C1, counterexample.  The claim says the compiler freezes both compiled
inputs of an Aggregation regardless of their grouping spec or distinct flag.
For the plain inputs `exQ0`, `exQ1` (empty grouping, distinct unset) the
aggregation is built with no materialized child, reading the `person` table
directly, and the temp-table counter is untouched: neither input was
frozen. -/
theorem c1_counterexample :
    (cmplaggregationCore [.qs exQ0, .qs exQ1] 0).map
        (fun p => (p.1.frozen.length, p.1.frm, p.2)) =
      some (0, some ⟨"person", ""⟩, 0) := by rfl

/-- C1, amended.  `freeze_qsts` leaves an Aggregation's compiled inputs
untouched exactly when neither has a truthy grouping spec or a set distinct
flag; a frozen input becomes a passthrough over a fresh `tmp<counter>` table
(no joins, filters or grouping) with its former body appended as one more
materialized child. -/
theorem c1_amended (q0 q1 : QS) (n : ℕ) :
    (freezeQsts [.qs q0, .qs q1] n = ([.qs q0, .qs q1], n) ↔
      (gbTruthy q0.groupbys || q0.distinct) = false ∧
        (gbTruthy q1.groupbys || q1.distinct) = false) ∧
    (∀ q m, (freezeQ q m).1.frm = some ⟨"tmp" ++ toString m, ""⟩ ∧
      (freezeQ q m).1.joins = [] ∧ (freezeQ q m).1.wheres = [] ∧
      (freezeQ q m).1.groupbys = .cols [] ∧
      (freezeQ q m).1.frozen.length = q.frozen.length + 1) := by
  constructor
  · rw [freezeQsts_pair]
    by_cases h0 : (gbTruthy q0.groupbys || q0.distinct) = true <;>
      by_cases h1 : (gbTruthy q1.groupbys || q1.distinct) = true <;>
      simp [h0, h1]
  · intro q m
    simp [freezeQ, QS.frm, QS.joins, QS.wheres, QS.groupbys, QS.frozen]

/-- `mapMO` of a composed map. -/
theorem mapMO_map_comp (f : α → Option β) (g : β → γ) (l : List α) :
    mapMO (fun a => (f a).map g) l = (mapMO f l).map (List.map g) := by
  induction l with
  | nil => simp [mapMO]
  | cons a rest ih =>
    cases h : f a <;> simp [mapMO, h, ih]
    cases hr : mapMO f rest <;> simp

/-- C2, counterexample.  The claim says the aggregation's grouping spec
equals the compiled group plan's non-empty domain-columns.  For the group
plan `exQ1` (domain-column `person.person_id`, codomain-column
`person.resident_of`) the produced grouping spec is `person.resident_of` —
the group plan's codomain column, not its domain column. -/
theorem c2_counterexample :
    (cmplaggregationCore [.qs exQ0, .qs exQ1] 0).map (fun p => p.1.groupbys) =
        some (.cols [⟨"person", "resident_of", ""⟩]) ∧
      exQ1.selectsdom = [.colA ⟨"person", "person_id", ""⟩] ∧
      GroupBys.cols [⟨"person", "resident_of", ""⟩] ≠
        GroupBys.cols [⟨"person", "person_id", ""⟩] :=
  ⟨by rfl, by rfl, by decide⟩

/-- C2, amended.  The combine step of an Aggregation wraps every
codomain-column of the (conditionally frozen) value plan in `SUM(...)`, its
domain-columns are the group plan's codomain-columns, and its grouping spec
is the group plan's table-carrying codomain-columns — or the aggregate-all
flag when none carries a table. -/
theorem c2_amended (q0 q1 : QS) (rest : List QS) (r : QS)
    (hr : aggCombine q0 q1 rest = some r) :
    (∃ cas, mapMO getColA q0.selectscod = some cas ∧
      r.selectscod = cas.map sumWrap) ∧
    (∃ gcas, mapMO getColA q1.selectscod = some gcas ∧
      r.groupbys =
        (if ((gcas.filter fun c => c.table ≠ "").map
              fun c => (⟨c.table, c.col, ""⟩ : CA)).isEmpty
         then GroupBys.allAgg
         else .cols ((gcas.filter fun c => c.table ≠ "").map
           fun c => ⟨c.table, c.col, ""⟩))) ∧
    r.selectsdom = q1.selectscod := by
  unfold aggCombine at hr
  rw [mapMO_map_comp getColA sumWrap q0.selectscod] at hr
  rcases hj : aggJoin q0 q1 with _ | jv <;> rw [hj] at hr
  · simp at hr
  rcases hcs : mapMO getColA q0.selectscod with _ | cas <;> rw [hcs] at hr
  · simp at hr
  rcases hg : mapMO getColA q1.selectscod with _ | gcas <;> rw [hg] at hr
  · simp at hr
  simp only [Option.bind_eq_bind, Option.some_bind, Option.map_some',
    Option.pure_def, Option.some.injEq] at hr
  subst hr
  refine ⟨⟨cas, rfl, ?_⟩, ⟨gcas, rfl, ?_⟩, ?_⟩
  · simp [mkQStruct, QS.selectscod]
  · by_cases hemp : ((gcas.filter fun c => c.table ≠ "").map
        fun c => (⟨c.table, c.col, ""⟩ : CA)).isEmpty = true <;>
      simp [mkQStruct, QS.groupbys, hemp]
  · simp [mkQStruct, QS.selectsdom]

/-- C2, amended claim witness at the concrete plans `exQ0`, `exQ1`. -/
theorem c2_amended_witness :
    ((∃ cas, mapMO getColA exQ0.selectscod = some cas ∧
      c2res.selectscod = cas.map sumWrap) ∧
    (∃ gcas, mapMO getColA exQ1.selectscod = some gcas ∧
      c2res.groupbys =
        (if ((gcas.filter fun c => c.table ≠ "").map
              fun c => (⟨c.table, c.col, ""⟩ : CA)).isEmpty
         then GroupBys.allAgg
         else .cols ((gcas.filter fun c => c.table ≠ "").map
           fun c => ⟨c.table, c.col, ""⟩))) ∧
    c2res.selectsdom = exQ1.selectscod) :=
  c2_amended exQ0 exQ1 [] c2res (by rfl)

/-- C3, counterexample.  The claim says freezing an already-frozen
passthrough leaves the rendered SQL of the root plan unchanged.  Freezing
the plain plan `exPlain` yields a passthrough over `tmp0`; freezing that
passthrough again changes its rendering: a second `CREATE TEMPORARY TABLE`
(for `tmp1`) appears and the final `SELECT` reads `tmp1` instead of
`tmp0`. -/
theorem c3_counterexample :
    reprQ (freezeQ (freezeQ exPlain 0).1 1).1 ≠ reprQ (freezeQ exPlain 0).1 := by
  decide

/-- C3, amended.  Applying `freeze` to an already-frozen passthrough is not
a rendering no-op: it re-points the root at the freshly minted temp table
and appends one more materialized child, while the root keeps the
passthrough shape (no joins, filters or grouping). -/
theorem c3_amended (q : QS) (n m : ℕ) :
    (freezeQ (freezeQ q n).1 m).1.frm = some ⟨"tmp" ++ toString m, ""⟩ ∧
    (freezeQ (freezeQ q n).1 m).1.joins = [] ∧
    (freezeQ (freezeQ q n).1 m).1.wheres = [] ∧
    (freezeQ (freezeQ q n).1 m).1.groupbys = .cols [] ∧
    (freezeQ (freezeQ q n).1 m).1.frozen.length =
      (freezeQ q n).1.frozen.length + 1 := by
  simp [freezeQ, QS.frm, QS.joins, QS.wheres, QS.groupbys, QS.frozen]

/-- C4, counterexample.  The claim says compiling `income ∘ lives_at` over
the person/address catalogue yields domain-column `address.address_id`.
The compiled plan's domain column is `person.person_id`. -/
theorem c4_counterexample :
    (cmpl cat4 c4term none "").map (fun q => colspecStr q.selectsdom) =
        .ok "person.person_id" ∧
      "person.person_id" ≠ "address.address_id" :=
  ⟨by rfl, by decide⟩

/-- C4, amended.  Compiling `income ∘ lives_at` over the stated catalogue
(both `lives_at` and `income` resolve to the person design) yields
domain-column `person.person_id`, codomain-column `person_lives_at.income`,
exactly one JOIN — of table `person` aliased `person_lives_at` with
condition `person_lives_at.person_id = person.lives_at` — no grouping and
no materialized children. -/
theorem c4_amended :
    (cmpl cat4 c4term none "").map reprQ =
        .ok ("SELECT person.person_id, person_lives_at.income\nFROM person\nJOIN person AS person_lives_at ON (person_lives_at.person_id = person.lives_at)\n") ∧
      (cmpl cat4 c4term none "").map
          (fun q => (q.joins.length, gbTruthy q.groupbys, q.frozen.length)) =
        .ok (1, false, 0) :=
  ⟨by rfl, by rfl⟩

/-- `gatherDims` on an all-projection tail concatenates the dimension
lists. -/
theorem gatherDims_all_proj (projs : List (List ℕ × ℕ)) :
    gatherDims (projs.map fun p => CQ.qproj p.1 p.2) =
      .ok (projs.map Prod.fst).flatten := by
  induction projs with
  | nil => rfl
  | cons p rest ih => simp [gatherDims, ih, Except.map]

/-- `gatherDims` fails with the mixed-projection error as soon as a
non-projection member is present. -/
theorem gatherDims_mixed (rest : List CQ) (h : ∃ c ∈ rest, isProjCQ c = false) :
    gatherDims rest = .error .mixedProjection := by
  induction rest with
  | nil => simp at h
  | cons c tail ih =>
    obtain ⟨c2, hc2, hproj⟩ := h
    cases c with
    | qproj d a =>
      have : c2 ∈ tail := by
        rcases List.mem_cons.mp hc2 with h1 | h1
        · subst h1; simp [isProjCQ] at hproj
        · exact h1
      simp [gatherDims, ih ⟨c2, this, hproj⟩, Except.map]
    | qs q => rfl
    | qop p i => rfl

/-- C8.  If a Product's first compiled factor is a projection descriptor,
then: when all remaining factors are projection descriptors as well, the
result is a projection descriptor whose dimension sequence is the
concatenation of the factors' dimension sequences (inheriting the first
factor's total dimension count); and when some later factor is not a
projection descriptor, compilation fails with the typed "mixed projection"
error. -/
theorem c8_mixed_projection (d0 : List ℕ) (a0 : ℕ) (rest : List CQ) (n : ℕ) :
    (∀ projs : List (List ℕ × ℕ), rest = projs.map (fun p => CQ.qproj p.1 p.2) →
      cmplproductCore (.qproj d0 a0 :: rest) n =
        .ok (.qproj (d0 ++ (projs.map Prod.fst).flatten) a0, n)) ∧
    ((∃ c ∈ rest, isProjCQ c = false) →
      cmplproductCore (.qproj d0 a0 :: rest) n = .error .mixedProjection) := by
  constructor
  · intro projs hrest
    subst hrest
    simp [cmplproductCore, gatherDims_all_proj, Except.map]
  · intro h
    simp [cmplproductCore, gatherDims_mixed rest h, Except.map]

/-- C8, witness: two projection factors concatenate; a projection followed
by an operator descriptor raises the mixed-projection error. -/
theorem c8_mixed_projection_witness :
    cmplproductCore [.qproj [0] 2, .qproj [1] 2] 0 = .ok (.qproj [0, 1] 2, 0) ∧
    cmplproductCore [.qproj [0] 2, .qop "" ""] 0 = .error .mixedProjection := by
  constructor
  · have h := (c8_mixed_projection [0] 2 [.qproj [1] 2] 0).1 [([1], 2)] (by rfl)
    simpa using h
  · exact (c8_mixed_projection [0] 2 [.qop "" ""] 0).2 ⟨.qop "" "", by simp, rfl⟩

/-- Split a true boolean conjunction. -/
lemma band_true {a b : Bool} (h : (a && b) = true) : a = true ∧ b = true := by
  simp only [Bool.and_eq_true] at h
  exact h

/-- Elements of a well-formed argument list are well-formed. -/
lemma wfTList_mem {l : List Term} (h : wfTList l = true) :
    ∀ a ∈ l, wfT a = true := by
  induction l with
  | nil => intro a ha; simp at ha
  | cons t rest ih =>
    rw [wfTList] at h
    intro a ha
    rcases List.mem_cons.mp ha with h1 | h1
    · subst h1; exact (band_true h).1
    · exact ih (band_true h).2 a h1

/-- A type-kind term's `kind` attribute. -/
lemma isTypeKind_kindStr {t : Term} (h : isTypeKind t = true) :
    kindStr t = some "type" := by
  simpa [isTypeKind] using h

/-- A well-formed element has a functional type with type-kind domain and
codomain (the invariant `Element.__init__` and `Gap.__init__` enforce). -/
lemma wf_elem_typeDC {a : Term} (hw : wfT a = true)
    (he : kindStr a = some "element") :
    ∃ p : Term × Term, typeDC a = some p ∧
      isTypeKind p.1 = true ∧ isTypeKind p.2 = true := by
  cases a with
  | typeK v n i => simp [kindStr] at he
  | elemK v n i d c cd =>
    rw [wfT] at hw
    exact ⟨(d, c), by rw [typeDC], (band_true hw).1,
      (band_true hw).2⟩
  | gapT n i => simp [kindStr] at he
  | gapE n i d c =>
    rw [wfT] at hw
    exact ⟨(d, c), by rw [typeDC], (band_true hw).1,
      (band_true hw).2⟩
  | intLit m => simp [kindStr] at he
  | app op args =>
    rw [wfT] at hw
    have hop : opKindElement op = true := by
      cases hop0 : opKindElement op
      · simp [kindStr, hop0] at he
      · rfl
    rw [hop] at hw
    simp only [Bool.not_true, Bool.false_or, Bool.and_eq_true] at hw
    rcases htd : typeDC (.app op args) with _ | p
    · rw [htd] at hw; simp at hw
    · rw [htd] at hw
      exact ⟨p, rfl, (band_true hw.2).1, (band_true hw.2).2⟩

/-- A passed element-kind loop certifies every member. -/
lemma checkElementsLoop_mem {l : List Term}
    (h : checkElementsLoop l = some true) :
    ∀ a ∈ l, kindStr a = some "element" := by
  induction l with
  | nil => intro a ha; simp at ha
  | cons t rest ih =>
    rw [checkElementsLoop] at h
    rcases hk : kindStr t with _ | k
    · rw [hk] at h; simp at h
    · rw [hk] at h
      by_cases hke : k = "element"
      · subst hke
        simp only [ne_eq, not_true_eq_false, if_false] at h
        intro a ha
        rcases List.mem_cons.mp ha with h1 | h1
        · subst h1; exact hk
        · exact ih h a h1
      · simp [hke] at h

/-- A passed type-kind loop certifies every member. -/
lemma checkTypesLoop_mem {l : List Term}
    (h : checkTypesLoop l = some true) :
    ∀ a ∈ l, kindStr a = some "type" := by
  induction l with
  | nil => intro a ha; simp at ha
  | cons t rest ih =>
    rw [checkTypesLoop] at h
    rcases hk : kindStr t with _ | k
    · rw [hk] at h; simp at h
    · rw [hk] at h
      by_cases hke : k = "type"
      · subst hke
        simp only [ne_eq, not_true_eq_false, if_false] at h
        intro a ha
        rcases List.mem_cons.mp ha with h1 | h1
        · subst h1; exact hk
        · exact ih h a h1
      · simp [hke] at h

/-- A member-wise type-kind certificate passes the loop. -/
lemma checkTypesLoop_of_all {l : List Term}
    (h : ∀ a ∈ l, kindStr a = some "type") :
    checkTypesLoop l = some true := by
  induction l with
  | nil => rfl
  | cons t rest ih =>
    have h1 := h t (List.mem_cons_self t rest)
    have h2 := ih fun a ha => h a (List.mem_cons_of_mem t ha)
    rw [checkTypesLoop, h1]
    simpa using h2

/-- A passed common-domain loop certifies every member element-kind. -/
lemma domLoop_mem {d0 : Term} {l : List Term} (h : domLoop d0 l = some true) :
    ∀ a ∈ l, kindStr a = some "element" := by
  induction l with
  | nil => intro a ha; simp at ha
  | cons t rest ih =>
    rw [domLoop] at h
    rcases hk : kindStr t with _ | k
    · rw [hk] at h; simp at h
    · rw [hk] at h
      simp only [Option.bind_eq_bind, Option.some_bind] at h
      by_cases hke : k = "element"
      · subst hke
        simp only [ne_eq, not_true_eq_false, if_false] at h
        rcases htd : typeDC t with _ | pa
        · rw [htd] at h; simp at h
        · rw [htd] at h
          simp only [Option.some_bind] at h
          rcases heq : equalsTerm pa.1 d0
          · rw [heq] at h; simp at h
          · rw [heq] at h
            simp only [Bool.not_true, Bool.false_eq_true, if_false] at h
            intro a ha
            rcases List.mem_cons.mp ha with h1 | h1
            · subst h1; exact hk
            · exact ih h a h1
      · simp [hke] at h

/-- `mapMO` over a list where the map never crashes. -/
lemma mapMO_some_of_all {f : α → Option β} {l : List α}
    (h : ∀ a ∈ l, (f a).isSome = true) :
    ∃ l2, mapMO f l = some l2 ∧ l2.length = l.length ∧
      ∀ b ∈ l2, ∃ a ∈ l, f a = some b := by
  induction l with
  | nil => exact ⟨[], rfl, rfl, by simp⟩
  | cons a rest ih =>
    rcases hb : f a with _ | b
    · have h0 := h a (List.mem_cons_self a rest)
      rw [hb] at h0; simp at h0
    · obtain ⟨l2, hl2, hlen, hmem⟩ :=
        ih fun x hx => h x (List.mem_cons_of_mem a hx)
      refine ⟨b :: l2, ?_, by simp [hlen], ?_⟩
      · simp [mapMO, hb, hl2]
      · intro c hc
        rcases List.mem_cons.mp hc with h1 | h1
        · exact ⟨a, List.mem_cons_self a rest, by rw [hb, h1]⟩
        · obtain ⟨x, hx, hfx⟩ := hmem c h1
          exact ⟨x, List.mem_cons_of_mem a hx, hfx⟩

/-- A functional-type application over two type-kind arguments builds. -/
lemma mkTypeApp_fun_ok {a b : Term} (ha : kindStr a = some "type")
    (hb : kindStr b = some "type") :
    mkTypeApp .functionalType [a, b] = .ok (.app .functionalType [a, b]) := by
  have hc : checkConstraints .functionalType [a, b] = some true := by
    simp [checkConstraints, ha, hb]
  rw [mkTypeApp, hc]

/-- A Cartesian-product application over two or more type-kind arguments
builds. -/
lemma mkTypeApp_cart_ok {l : List Term} (hlen : 2 ≤ l.length)
    (h : ∀ a ∈ l, kindStr a = some "type") :
    mkTypeApp .cartesianProduct l = .ok (.app .cartesianProduct l) := by
  have hc : checkConstraints .cartesianProduct l = some true := by
    rw [checkConstraints, if_neg (by omega)]
    exact checkTypesLoop_of_all h
  rw [mkTypeApp, hc]

/-- The head of a list is a member. -/
lemma mem_of_head_eq {l : List α} {a : α} (h : l.head? = some a) : a ∈ l := by
  cases l with
  | nil => simp at h
  | cons x rest =>
    simp only [List.head?_cons, Option.some.injEq] at h
    subst h
    exact List.mem_cons_self x rest

/-- The last element of a list is a member. -/
lemma mem_of_getLast_eq : ∀ {l : List α} {a : α},
    l.getLast? = some a → a ∈ l := by
  intro l
  induction l with
  | nil => intro a h; simp at h
  | cons x rest ih =>
    intro a h
    cases rest with
    | nil =>
      simp only [List.getLast?_singleton, Option.some.injEq] at h
      subst h
      exact List.mem_cons_self x []
    | cons y t =>
      rw [List.getLast?_cons_cons] at h
      exact List.mem_cons_of_mem x (ih h)

/-- A nonempty list has a last element. -/
lemma getLast_eq_some_of_ne : ∀ {l : List α}, l ≠ [] →
    ∃ a, l.getLast? = some a := by
  intro l
  induction l with
  | nil => intro h; exact absurd rfl h
  | cons x rest ih =>
    intro h
    cases rest with
    | nil => exact ⟨x, rfl⟩
    | cons y t =>
      obtain ⟨a, ha⟩ := ih (by simp)
      exact ⟨a, by rw [List.getLast?_cons_cons]; exact ha⟩

/-- An indexed element is a member. -/
lemma mem_of_get_eq : ∀ {l : List α} {n : ℕ} {a : α},
    l.get? n = some a → a ∈ l := by
  intro l
  induction l with
  | nil => intro n a h; simp at h
  | cons x rest ih =>
    intro n a h
    cases n with
    | zero =>
      simp only [List.get?_cons_zero, Option.some.injEq] at h
      subst h
      exact List.mem_cons_self x rest
    | succ m => exact List.mem_cons_of_mem x (ih h)

/-- Indexing within bounds succeeds. -/
lemma get_eq_some_of_lt : ∀ {l : List α} {n : ℕ}, n < l.length →
    ∃ a, l.get? n = some a := by
  intro l
  induction l with
  | nil => intro n h; simp at h
  | cons x rest ih =>
    intro n h
    cases n with
    | zero => exact ⟨x, rfl⟩
    | succ m =>
      exact ih (by simp only [List.length_cons] at h; omega)

/-- Indexing strictly before the last element agrees with `dropLast`. -/
lemma get_dropLast_eq : ∀ {l : List α} {n : ℕ}, n + 1 < l.length →
    l.dropLast.get? n = l.get? n := by
  intro l
  induction l with
  | nil => intro n h; simp at h
  | cons x rest ih =>
    intro n h
    cases rest with
    | nil => simp only [List.length_cons, List.length_nil] at h; omega
    | cons y t =>
      cases n with
      | zero => rfl
      | succ m =>
        exact ih (by simp only [List.length_cons] at h ⊢; omega)

/-- The heart of C5: on a well-formed argument list that passes its
operation's constraint check, the return-type derivation of
`Application.__init__` succeeds — every inner `Application` it constructs
(functional types, Cartesian products, selections, ranges) is built over
type-kind arguments, so no inner `InvalidApplication` and no crash can
arise. -/
lemma deriveType_ok_of_check (op : Op) (args : List Term)
    (hwf : wfTList args = true) (hc : checkConstraints op args = some true) :
    ∃ r, deriveType op args = .ok r := by
  cases op with
  | composition =>
    rcases args with _ | ⟨a0, rest⟩
    · exact absurd hc (by decide)
    rw [checkConstraints] at hc
    by_cases hlen : (a0 :: rest).length < 2
    · rw [if_pos hlen] at hc; simp at hc
    rw [if_neg hlen] at hc
    rcases hel : checkElementsLoop (a0 :: rest) with _ | b
    · rw [hel] at hc; simp at hc
    rw [hel] at hc
    cases b
    · simp at hc
    have helems := checkElementsLoop_mem hel
    obtain ⟨la, hla⟩ := getLast_eq_some_of_ne (l := a0 :: rest) (by simp)
    have hlam : la ∈ a0 :: rest := mem_of_getLast_eq hla
    have hham : a0 ∈ a0 :: rest := List.mem_cons_self a0 rest
    obtain ⟨pl, hpl, hpl1, _⟩ :=
      wf_elem_typeDC (wfTList_mem hwf la hlam) (helems la hlam)
    obtain ⟨ph, hph, _, hph2⟩ :=
      wf_elem_typeDC (wfTList_mem hwf a0 hham) (helems a0 hham)
    refine ⟨some (.app .functionalType [pl.1, ph.2]), ?_⟩
    rw [deriveType]
    simp only [hla, List.head?_cons, hpl, hph, Option.bind_eq_bind,
      Option.some_bind, Option.pure_def]
    rw [mkTypeApp_fun_ok (isTypeKind_kindStr hpl1) (isTypeKind_kindStr hph2)]
    rfl
  | product =>
    rw [checkConstraints] at hc
    by_cases hlen : args.length < 2
    · rw [if_pos hlen] at hc; simp at hc
    rw [if_neg hlen] at hc
    rcases hha : args.head? with _ | a0
    · rw [hha] at hc; simp at hc
    rw [hha] at hc
    simp only [Option.bind_eq_bind, Option.some_bind] at hc
    rcases htd0 : typeDC a0 with _ | p0
    · rw [htd0] at hc; simp at hc
    rw [htd0] at hc
    simp only [Option.some_bind] at hc
    have helems := domLoop_mem hc
    have hall : ∀ a ∈ args, ((typeDC a).map Prod.snd).isSome = true := by
      intro a ha
      obtain ⟨p, hp, _, _⟩ :=
        wf_elem_typeDC (wfTList_mem hwf a ha) (helems a ha)
      rw [hp]; rfl
    obtain ⟨cods, hcods, hlen2, hmem2⟩ := mapMO_some_of_all hall
    have hcodtypes : ∀ b ∈ cods, kindStr b = some "type" := by
      intro b hb
      obtain ⟨a, ha, hfa⟩ := hmem2 b hb
      obtain ⟨p, hp, _, hp2⟩ :=
        wf_elem_typeDC (wfTList_mem hwf a ha) (helems a ha)
      rw [hp] at hfa
      simp only [Option.map_some', Option.some.injEq] at hfa
      rw [← hfa]
      exact isTypeKind_kindStr hp2
    have hcart := mkTypeApp_cart_ok (by omega) hcodtypes
    have hp0k : isTypeKind p0.1 = true := by
      obtain ⟨p, hp, h1, _⟩ :=
        wf_elem_typeDC (wfTList_mem hwf a0 (mem_of_head_eq hha))
          (helems a0 (mem_of_head_eq hha))
      rw [htd0] at hp
      injection hp with hpe
      rw [hpe]
      exact h1
    refine ⟨some (.app .functionalType
      [p0.1, .app .cartesianProduct cods]), ?_⟩
    rw [deriveType]
    simp only [hcods, hcart, hha, htd0, Option.bind_eq_bind,
      Option.some_bind, Option.pure_def]
    rw [mkTypeApp_fun_ok (isTypeKind_kindStr hp0k)
      (show kindStr (Term.app .cartesianProduct cods) = some "type" from rfl)]
    rfl
  | cartesianProduct => exact ⟨none, rfl⟩
  | inclusion =>
    rw [checkConstraints] at hc
    have hsel : mkTypeApp .selection args = .ok (.app .selection args) := by
      have h3 : checkConstraints .selection args = some true := hc
      rw [mkTypeApp, h3]
    rw [inclusionCheck] at hc
    by_cases h2 : args.length < 2
    · rw [if_pos h2] at hc; simp at hc
    rw [if_neg h2] at hc
    by_cases hpar : args.length % 2 ≠ 0
    · rw [if_pos hpar] at hc; simp at hc
    rw [if_neg hpar] at hc
    rcases hha : args.head? with _ | a0
    · rw [hha] at hc; simp at hc
    rw [hha] at hc
    simp only [Option.bind_eq_bind, Option.some_bind] at hc
    rcases htd0 : typeDC a0 with _ | p0
    · rw [htd0] at hc; simp at hc
    rw [htd0] at hc
    simp only [Option.some_bind] at hc
    rcases hdl : domLoop p0.1 args with _ | b
    · rw [hdl] at hc; simp at hc
    rw [hdl] at hc
    cases b
    · simp at hc
    have helems := domLoop_mem hdl
    obtain ⟨p, hp, hp1, _⟩ :=
      wf_elem_typeDC (wfTList_mem hwf a0 (mem_of_head_eq hha))
        (helems a0 (mem_of_head_eq hha))
    rw [hp] at htd0
    injection htd0 with htd0e
    refine ⟨some (.app .functionalType [.app .selection args, p0.1]), ?_⟩
    rw [deriveType]
    simp only [hsel, hha, hp, Option.bind_eq_bind, Option.some_bind,
      Option.pure_def]
    rw [htd0e]
    rw [mkTypeApp_fun_ok
      (show kindStr (Term.app .selection args) = some "type" from rfl)
      (isTypeKind_kindStr (htd0e ▸ hp1))]
    rfl
  | selection => exact ⟨none, rfl⟩
  | functionalType => exact ⟨none, rfl⟩
  | alpha =>
    rw [checkConstraints] at hc
    by_cases hlen : args.length ≠ 2
    · rw [if_pos hlen] at hc; simp at hc
    rw [if_neg hlen] at hc
    rcases hel : checkElementsLoop args with _ | b
    · rw [hel] at hc; simp at hc
    rw [hel] at hc
    cases b
    · simp at hc
    have helems := checkElementsLoop_mem hel
    simp only [ne_eq, Decidable.not_not] at hlen
    obtain ⟨a0, ha0⟩ := get_eq_some_of_lt (l := args) (n := 0) (by omega)
    obtain ⟨a1, ha1⟩ := get_eq_some_of_lt (l := args) (n := 1) (by omega)
    obtain ⟨p0, hp0, _, hp02⟩ :=
      wf_elem_typeDC (wfTList_mem hwf a0 (mem_of_get_eq ha0))
        (helems a0 (mem_of_get_eq ha0))
    obtain ⟨p1, hp1, _, hp12⟩ :=
      wf_elem_typeDC (wfTList_mem hwf a1 (mem_of_get_eq ha1))
        (helems a1 (mem_of_get_eq ha1))
    refine ⟨some (.app .functionalType [p1.2, p0.2]), ?_⟩
    rw [deriveType]
    simp only [ha0, ha1, hp0, hp1, Option.bind_eq_bind, Option.some_bind,
      Option.pure_def]
    rw [mkTypeApp_fun_ok (isTypeKind_kindStr hp12) (isTypeKind_kindStr hp02)]
    rfl
  | inverse =>
    have hrng : mkTypeApp .rnge args = .ok (.app .rnge args) := by
      have h3 : checkConstraints .rnge args = some true := hc
      rw [mkTypeApp, h3]
    rcases args with _ | ⟨a, rest⟩
    · exact absurd (show (some false : Option Bool) = some true from hc)
        (by simp)
    rcases rest with _ | ⟨b2, t⟩
    · have hc2 : (do
          let k ← kindStr a
          pure (k == "element") : Option Bool) = some true := hc
      rcases hk : kindStr a with _ | k
      · rw [hk] at hc2; simp at hc2
      rw [hk] at hc2
      simp only [Option.bind_eq_bind, Option.some_bind, Option.pure_def,
        Option.some.injEq, beq_iff_eq] at hc2
      subst hc2
      obtain ⟨p0, hp0, _, hp02⟩ :=
        wf_elem_typeDC (wfTList_mem hwf a (by simp)) hk
      refine ⟨some (.app .functionalType [.app .rnge [a], p0.2]), ?_⟩
      rw [deriveType]
      simp only [hrng, List.head?_cons, hp0, Option.bind_eq_bind,
        Option.some_bind, Option.pure_def]
      rw [mkTypeApp_fun_ok
        (show kindStr (Term.app .rnge [a]) = some "type" from rfl)
        (isTypeKind_kindStr hp02)]
      rfl
    · exact absurd (show (some false : Option Bool) = some true from hc)
        (by simp)
  | rnge => exact ⟨none, rfl⟩
  | projection =>
    rw [checkConstraints] at hc
    by_cases hlen : args.length < 3
    · rw [if_pos hlen] at hc; simp at hc
    rw [if_neg hlen] at hc
    rcases htl : checkTypesLoop args.dropLast with _ | b
    · rw [htl] at hc; simp at hc
    rw [htl] at hc
    cases b
    · simp at hc
    have htypes := checkTypesLoop_mem htl
    rcases hgl : args.getLast? with _ | lt
    · rw [hgl] at hc; simp at hc
    rw [hgl] at hc
    cases lt with
    | intLit k =>
      simp at hc
      have hcart := mkTypeApp_cart_ok
        (l := args.dropLast)
        (by rw [List.length_dropLast]; omega) htypes
      have hidx : (k - 1).toNat + 1 < args.length := by omega
      obtain ⟨el, hel⟩ := get_eq_some_of_lt (l := args)
        (n := (k - 1).toNat) (by omega)
      have heldrop : args.dropLast.get? (k - 1).toNat = some el := by
        rw [get_dropLast_eq hidx]; exact hel
      have heltype : kindStr el = some "type" :=
        htypes el (mem_of_get_eq heldrop)
      refine ⟨some (.app .functionalType
        [.app .cartesianProduct args.dropLast, el]), ?_⟩
      rw [deriveType]
      simp only [hcart, hgl]
      rw [if_neg (show ¬ k < 1 by omega)]
      simp only [hel]
      rw [mkTypeApp_fun_ok
        (show kindStr (Term.app .cartesianProduct args.dropLast) =
          some "type" from rfl) heltype]
      rfl
    | typeK v n i => simp at hc
    | elemK v n i d c cd => simp at hc
    | gapT n i => simp at hc
    | gapE n i d c => simp at hc
    | app o a2 => simp at hc

/-- C5.  For well-formed arguments, `Application.__init__` raises the typed
`InvalidApplication` failure exactly when the operation's constraint check
returns `False`; when the check passes, the return-type derivation cannot
fail and the `Application` is built with its derived type; and every
successfully built `Application` passed its operation's check — no
ill-constrained `Application` is ever constructed. -/
theorem c5_invalid_application (op : Op) (args : List Term)
    (hwf : wfTList args = true) :
    (mkApplication op args = .invalidApplication op args ↔
      checkConstraints op args = some false) ∧
    (checkConstraints op args = some true →
      mkApplication op args = .ok (.app op args)) ∧
    (∀ t, mkApplication op args = .ok t →
      t = .app op args ∧ checkConstraints op args = some true) := by
  have hd : ∀ (h : checkConstraints op args = some true),
      mkApplication op args = .ok (.app op args) := by
    intro h
    obtain ⟨r, hr⟩ := deriveType_ok_of_check op args hwf h
    rw [mkApplication, h, hr]
  refine ⟨⟨?_, ?_⟩, hd, ?_⟩
  · intro h
    rcases hcc : checkConstraints op args with _ | b
    · rw [mkApplication, hcc] at h; simp at h
    · cases b
      · rfl
      · rw [hd hcc] at h; simp at h
  · intro h
    rw [mkApplication, h]
  · intro t h
    rcases hcc : checkConstraints op args with _ | b
    · rw [mkApplication, hcc] at h; simp at h
    · cases b
      · rw [mkApplication, hcc] at h; simp at h
      · rw [hd hcc] at h
        injection h with h2
        exact ⟨h2.symm, rfl⟩

/-- C5, witness: the chaining composition `z ∘ y` of two well-formed gap
elements (`y : c → e`, `z : e → f`) passes the composition constraints and
builds. -/
theorem c5_witness :
    wfTList [gapZ, gapY] = true ∧
    mkApplication .composition [gapZ, gapY] =
      .ok (.app .composition [gapZ, gapY]) := by
  have hwf : wfTList [gapZ, gapY] = true := by decide
  refine ⟨hwf, ?_⟩
  apply (c5_invalid_application .composition [gapZ, gapY] hwf).2.1
  show checkConstraints .composition [gapZ, gapY] = some true
  simp [checkConstraints, checkElementsLoop, kindStr, gapZ, gapY, chainFold,
    typeDC, equalsTerm, gapC, gapE2, gapF]

/-- Dropping a prefix occurrence at a non-matching position. -/
lemma countOcc_cons_neg (pat : List Char) (c : Char) (rest : List Char)
    (h : pat.isPrefixOf (c :: rest) = false) :
    countOcc pat (c :: rest) = countOcc pat rest := by
  rw [countOcc, h]
  simp

/-- The Boolean prefix test agrees with the prefix relation. -/
lemma isPrefixOf_true_iff {l1 l2 : List Char} :
    l1.isPrefixOf l2 = true ↔ l1 <+: l2 := List.isPrefixOf_iff_prefix

/-- The temp-table rewriting of `gen_sql` preserves prefix tests of patterns
free of `t` and `#` (it only inserts `#` before the `t` of a
`tmp<digits>` run). -/
lemma isPrefixOf_subTmp :
    ∀ (l : List Char), ∀ (pat : List Char), 't' ∉ pat → '#' ∉ pat →
      pat.isPrefixOf (subTmp l) = pat.isPrefixOf l := by
  intro l
  induction l using subTmp.induct with
  | case1 => intro pat ht hs; rw [subTmp]
  | case2 c rest hd ih =>
    intro pat ht hs
    rw [subTmp, if_pos hd]
    cases pat with
    | nil => rfl
    | cons p0 pat2 =>
      have hp0t : (p0 == 't') = false := by
        simp only [beq_eq_false_iff_ne, ne_eq]
        intro h; subst h; exact ht (List.mem_cons_self _ _)
      have hp0s : (p0 == '#') = false := by
        simp only [beq_eq_false_iff_ne, ne_eq]
        intro h; subst h; exact hs (List.mem_cons_self _ _)
      simp only [List.isPrefixOf, hp0t, hp0s, Bool.false_and]
  | case3 c rest hd ih =>
    intro pat ht hs
    rw [subTmp, if_neg hd]
    cases pat with
    | nil => rfl
    | cons p0 pat2 =>
      have hp0t : (p0 == 't') = false := by
        simp only [beq_eq_false_iff_ne, ne_eq]
        intro h; subst h; exact ht (List.mem_cons_self _ _)
      simp only [List.isPrefixOf, hp0t, Bool.false_and]
  | case4 c rest hshape ih =>
    intro pat ht hs
    rw [subTmp.eq_3 c rest hshape]
    cases pat with
    | nil => rfl
    | cons p0 pat2 =>
      simp only [List.isPrefixOf]
      rw [ih pat2 (fun hm => ht (List.mem_cons_of_mem _ hm))
        (fun hm => hs (List.mem_cons_of_mem _ hm))]

/-- Prefix tests through an appended context only see the tail through
pattern suffixes, so prefix-equivalent tails are interchangeable. -/
lemma isPrefixOf_append_congr (z w : List Char)
    (hzw : ∀ pat2 : List Char, 't' ∉ pat2 → '#' ∉ pat2 →
      pat2.isPrefixOf z = pat2.isPrefixOf w) :
    ∀ (x pat : List Char), 't' ∉ pat → '#' ∉ pat →
      pat.isPrefixOf (x ++ z) = pat.isPrefixOf (x ++ w) := by
  intro x
  induction x with
  | nil => intro pat ht hs; exact hzw pat ht hs
  | cons d x2 ih =>
    intro pat ht hs
    cases pat with
    | nil => rfl
    | cons p0 pat2 =>
      simp only [List.cons_append, List.isPrefixOf, List.append_eq]
      rw [ih pat2 (fun hm => ht (List.mem_cons_of_mem _ hm))
        (fun hm => hs (List.mem_cons_of_mem _ hm))]

/-- Occurrence counts through an appended context, for count- and
prefix-equivalent tails. -/
lemma countOcc_append_congr (z w : List Char)
    (hzw : ∀ pat2 : List Char, 't' ∉ pat2 → '#' ∉ pat2 →
      pat2.isPrefixOf z = pat2.isPrefixOf w)
    (x pat : List Char) (ht : 't' ∉ pat) (hs : '#' ∉ pat)
    (h : countOcc pat z = countOcc pat w) :
    countOcc pat (x ++ z) = countOcc pat (x ++ w) := by
  induction x with
  | nil => simpa using h
  | cons d x2 ih =>
    simp only [List.cons_append, countOcc, List.append_eq]
    rw [ih]
    simp only [show (d :: (x2 ++ z)) = ((d :: x2) ++ z) from rfl,
      show (d :: (x2 ++ w)) = ((d :: x2) ++ w) from rfl,
      isPrefixOf_append_congr z w hzw (d :: x2) pat ht hs]

/-- The temp-table rewriting of `gen_sql` preserves the occurrence count of
every nonempty pattern free of `t` and `#` — in particular of the
`ORDER BY`, ` LIMIT 5` and `TOP 5 ` markers. -/
lemma countOcc_subTmp :
    ∀ (l : List Char), ∀ (pat : List Char), pat ≠ [] → 't' ∉ pat → '#' ∉ pat →
      countOcc pat (subTmp l) = countOcc pat l := by
  intro l
  induction l using subTmp.induct with
  | case1 => intro pat hne ht hs; rw [subTmp]
  | case2 c rest hd ih =>
    intro pat hne ht hs
    rw [subTmp, if_pos hd]
    rcases pat with _ | ⟨p0, pat2⟩
    · exact absurd rfl hne
    have hp0t : (p0 == 't') = false := by
      simp only [beq_eq_false_iff_ne, ne_eq]
      intro h; subst h; exact ht (List.mem_cons_self _ _)
    have hp0s : (p0 == '#') = false := by
      simp only [beq_eq_false_iff_ne, ne_eq]
      intro h; subst h; exact hs (List.mem_cons_self _ _)
    have hpm : (p0 :: pat2).isPrefixOf ('#' :: 't' :: 'm' :: 'p' ::
        (List.takeWhile Char.isDigit (c :: rest)
          ++ subTmp (List.dropWhile Char.isDigit (c :: rest)))) = false := by
      simp only [List.isPrefixOf, hp0s, Bool.false_and]
    have hpt1 : (p0 :: pat2).isPrefixOf ('t' :: 'm' :: 'p' ::
        (List.takeWhile Char.isDigit (c :: rest)
          ++ subTmp (List.dropWhile Char.isDigit (c :: rest)))) = false := by
      simp only [List.isPrefixOf, hp0t, Bool.false_and]
    have hpt2 : (p0 :: pat2).isPrefixOf ('t' :: 'm' :: 'p' :: c :: rest)
        = false := by
      simp only [List.isPrefixOf, hp0t, Bool.false_and]
    have key : countOcc (p0 :: pat2)
        (('m' :: 'p' :: List.takeWhile Char.isDigit (c :: rest))
          ++ subTmp (List.dropWhile Char.isDigit (c :: rest))) =
        countOcc (p0 :: pat2)
        (('m' :: 'p' :: List.takeWhile Char.isDigit (c :: rest))
          ++ List.dropWhile Char.isDigit (c :: rest)) :=
      countOcc_append_congr _ _
        (fun pat3 h1 h2 => isPrefixOf_subTmp _ pat3 h1 h2) _ _ ht hs
        (ih (p0 :: pat2) hne ht hs)
    have key2 : (('m' :: 'p' :: List.takeWhile Char.isDigit (c :: rest))
          ++ List.dropWhile Char.isDigit (c :: rest)) =
        'm' :: 'p' :: c :: rest := by
      simp only [List.cons_append, List.takeWhile_append_dropWhile]
    rw [key2] at key
    rw [countOcc_cons_neg _ _ _ hpm, countOcc_cons_neg _ _ _ hpt1,
      countOcc_cons_neg _ _ _ hpt2]
    rw [show ('m' :: 'p' :: (List.takeWhile Char.isDigit (c :: rest)
          ++ subTmp (List.dropWhile Char.isDigit (c :: rest)))) =
        (('m' :: 'p' :: List.takeWhile Char.isDigit (c :: rest))
          ++ subTmp (List.dropWhile Char.isDigit (c :: rest))) from rfl]
    rw [key]
  | case3 c rest hd ih =>
    intro pat hne ht hs
    rw [subTmp, if_neg hd]
    rcases pat with _ | ⟨p0, pat2⟩
    · exact absurd rfl hne
    have hp0t : (p0 == 't') = false := by
      simp only [beq_eq_false_iff_ne, ne_eq]
      intro h; subst h; exact ht (List.mem_cons_self _ _)
    have h1 : (p0 :: pat2).isPrefixOf
        ('t' :: subTmp ('m' :: 'p' :: c :: rest)) = false := by
      simp only [List.isPrefixOf, hp0t, Bool.false_and]
    have h2 : (p0 :: pat2).isPrefixOf ('t' :: 'm' :: 'p' :: c :: rest)
        = false := by
      simp only [List.isPrefixOf, hp0t, Bool.false_and]
    rw [countOcc_cons_neg _ _ _ h1, countOcc_cons_neg _ _ _ h2]
    exact ih (p0 :: pat2) hne ht hs
  | case4 c rest hshape ih =>
    intro pat hne ht hs
    rw [subTmp.eq_3 c rest hshape]
    rcases pat with _ | ⟨p0, pat2⟩
    · exact absurd rfl hne
    have hpr : (p0 :: pat2).isPrefixOf (c :: subTmp rest) =
        (p0 :: pat2).isPrefixOf (c :: rest) := by
      simp only [List.isPrefixOf]
      rw [isPrefixOf_subTmp rest pat2 (fun hm => ht (List.mem_cons_of_mem _ hm))
        (fun hm => hs (List.mem_cons_of_mem _ hm))]
    rw [countOcc, countOcc, hpr, ih (p0 :: pat2) hne ht hs]

/-- Occurrence counting distributes over an append whose right part admits
no proper pattern tail as a prefix (no occurrence can straddle the seam). -/
lemma countOcc_append_right (pat b : List Char)
    (hb : ∀ k, k < pat.length → 0 < k →
      (pat.drop k).isPrefixOf b = false) :
    ∀ a, countOcc pat (a ++ b) = countOcc pat a + countOcc pat b := by
  intro a
  induction a with
  | nil => simp [countOcc]
  | cons c rest ih =>
    simp only [List.cons_append, countOcc, List.append_eq]
    rw [ih]
    have hiff : pat.isPrefixOf (c :: (rest ++ b)) =
        pat.isPrefixOf (c :: rest) := by
      by_cases hp : pat.isPrefixOf (c :: rest) = true
      · rw [hp]
        rw [isPrefixOf_true_iff] at hp ⊢
        rw [show (c :: (rest ++ b)) = (c :: rest) ++ b from rfl]
        exact hp.trans ⟨b, rfl⟩
      · rw [Bool.not_eq_true] at hp
        rw [hp]
        by_cases hq : pat.isPrefixOf (c :: (rest ++ b)) = true
        · exfalso
          rw [isPrefixOf_true_iff] at hq
          rw [show (c :: (rest ++ b)) = (c :: rest) ++ b from rfl] at hq
          obtain ⟨t, hT⟩ := hq
          by_cases hlen : pat.length ≤ (c :: rest).length
          · have h2 := congrArg (List.take pat.length) hT
            rw [List.take_left] at h2
            rw [List.take_append_of_le_length hlen] at h2
            have hpre : pat <+: (c :: rest) := by
              rw [h2]
              exact ⟨List.drop pat.length (c :: rest),
                List.take_append_drop pat.length (c :: rest)⟩
            have h3 := isPrefixOf_true_iff.mpr hpre
            rw [h3] at hp
            simp at hp
          · push_neg at hlen
            have hk := hb (c :: rest).length hlen (by simp)
            have h2 := congrArg (List.drop (c :: rest).length) hT
            rw [List.drop_append_of_le_length (le_of_lt hlen)] at h2
            rw [List.drop_left] at h2
            have hpre : (pat.drop (c :: rest).length) <+: b := ⟨t, h2⟩
            have h3 := isPrefixOf_true_iff.mpr hpre
            rw [h3] at hk
            simp at hk
        · rw [Bool.not_eq_true] at hq
          rw [hq]
    simp only [hiff]
    omega

/-- `a ++ b ++ c = a ++ (b ++ c)` on strings. -/
lemma strAppendAssoc (a b c : String) : a ++ b ++ c = a ++ (b ++ c) := by
  apply String.ext
  simp [String.data_append, List.append_assoc]

/-- `gen_sql` before the temp-table rewriting splits as everything before the
`ORDER BY` fragment, then `orderbystr ++ limitstr`, then the closing
newlines. -/
lemma genSqlCore_decomp (q : QS) (d : Dialect) (ct : Bool) :
    genSqlCore q d ct =
      (genSqlPre q d ct).map (fun a => a ++ (ordStr q d ++ "\n\n")) := by
  cases q with
  | mk tn dom cod frm joins wheres gbs frozen dist ob od =>
    rw [genSqlCore]
    rcases hk : genSqlKids frozen d with _ | kids
    · simp [genSqlPre, QS.frozen, hk]
    rcases hm : genSqlMid (QS.mk tn dom cod frm joins wheres gbs frozen dist
        ob od) d ct with _ | mid
    · simp [genSqlPre, QS.frozen, hk, hm]
    · simp only [genSqlPre, QS.frozen, hk, hm, Option.bind_eq_bind,
        Option.some_bind, Option.pure_def, Option.map_some',
        Option.some.injEq]
      apply String.ext
      simp [String.data_append, List.append_assoc]

/-- The outermost MySQL call performs no rewriting. -/
lemma genSql_mysql (q : QS) (ct : Bool) :
    genSql q .mysql ct = genSqlCore q .mysql ct := by
  rw [genSql]
  cases genSqlCore q .mysql ct <;> simp

/-- The outermost T-SQL call applies the temp-table rewriting to the whole
accumulated text. -/
lemma genSql_tsql_top (q : QS) :
    genSql q .tsql false = (genSqlCore q .tsql false).map subTmpStr := by
  rw [genSql]
  cases genSqlCore q .tsql false <;> simp

/-- C7.  A finished plan carrying the reserved sort column renders, in either
dialect, to SQL with exactly one `ORDER BY` clause and the dialect's row cap
of 5: a single ` LIMIT 5` for MySQL and a single `TOP 5 ` for T-SQL (the
latter emitted in the `SELECT` head and preserved by the temp-table
rewriting).  The hypotheses say the fragment rendered before the `ORDER BY`
clause is free of spurious markers — no `ORDER BY` or ` LIMIT 5` text, and
exactly the one `TOP 5 ` of the T-SQL head. -/
theorem c7_rowcap (q : QS) (d : Dialect) (a : String)
    (ho : q.orderby = some "keyc")
    (hp : genSqlPre q d false = some a)
    (h1 : countOcc ordPat a.data = 0)
    (h2 : countOcc limPat a.data = 0)
    (h3 : countOcc topPat a.data = (if d = .tsql then 1 else 0)) :
    ∃ s, genSql q d false = some s ∧
      countOcc ordPat s.data = 1 ∧
      countOcc limPat s.data = (if d = .mysql then 1 else 0) ∧
      countOcc topPat s.data = (if d = .tsql then 1 else 0) := by
  have hcore : genSqlCore q d false = some (a ++ (ordStr q d ++ "\n\n")) := by
    rw [genSqlCore_decomp, hp]
    rfl
  have main : ∀ sfx : String,
      countOcc ordPat sfx.data = 1 →
      countOcc limPat sfx.data = (if d = .mysql then 1 else 0) →
      countOcc topPat sfx.data = 0 →
      (∀ k, k < ordPat.length → 0 < k →
        (ordPat.drop k).isPrefixOf sfx.data = false) →
      (∀ k, k < limPat.length → 0 < k →
        (limPat.drop k).isPrefixOf sfx.data = false) →
      (∀ k, k < topPat.length → 0 < k →
        (topPat.drop k).isPrefixOf sfx.data = false) →
      countOcc ordPat (a ++ sfx).data = 1 ∧
      countOcc limPat (a ++ sfx).data = (if d = .mysql then 1 else 0) ∧
      countOcc topPat (a ++ sfx).data = (if d = .tsql then 1 else 0) := by
    intro sfx c1 c2 c3 hb1 hb2 hb3
    rw [String.data_append]
    rw [countOcc_append_right ordPat sfx.data hb1 a.data]
    rw [countOcc_append_right limPat sfx.data hb2 a.data]
    rw [countOcc_append_right topPat sfx.data hb3 a.data]
    rw [h1, h2, h3, c1, c2, c3]
    exact ⟨by simp, by simp, by simp⟩
  cases d with
  | mysql =>
    rw [genSql_mysql]
    by_cases hdir : q.orderdir = "desc"
    · have hsfx : ordStr q .mysql ++ "\n\n" =
          "\nORDER BY keyc DESC LIMIT 5\n\n" := by
        rw [ordStr, ho]
        simp [hdir]
      rw [hsfx] at hcore
      obtain ⟨g1, g2, g3⟩ := main "\nORDER BY keyc DESC LIMIT 5\n\n"
        (by decide) (by decide) (by decide) (by decide) (by decide) (by decide)
      exact ⟨_, hcore, g1, g2, g3⟩
    · have hsfx : ordStr q .mysql ++ "\n\n" =
          "\nORDER BY keyc ASC LIMIT 5\n\n" := by
        rw [ordStr, ho]
        simp [hdir]
      rw [hsfx] at hcore
      obtain ⟨g1, g2, g3⟩ := main "\nORDER BY keyc ASC LIMIT 5\n\n"
        (by decide) (by decide) (by decide) (by decide) (by decide) (by decide)
      exact ⟨_, hcore, g1, g2, g3⟩
  | tsql =>
    rw [genSql_tsql_top]
    by_cases hdir : q.orderdir = "desc"
    · have hsfx : ordStr q .tsql ++ "\n\n" = "\nORDER BY keyc DESC\n\n" := by
        rw [ordStr, ho]
        simp [hdir]
      rw [hsfx] at hcore
      obtain ⟨g1, g2, g3⟩ := main "\nORDER BY keyc DESC\n\n"
        (by decide) (by decide) (by decide) (by decide) (by decide) (by decide)
      refine ⟨subTmpStr (a ++ "\nORDER BY keyc DESC\n\n"), ?_, ?_, ?_, ?_⟩
      · rw [hcore]; rfl
      · rw [show (subTmpStr (a ++ "\nORDER BY keyc DESC\n\n")).data =
            subTmp ((a ++ "\nORDER BY keyc DESC\n\n").data) from rfl]
        rw [countOcc_subTmp _ ordPat (by decide) (by decide) (by decide)]
        exact g1
      · rw [show (subTmpStr (a ++ "\nORDER BY keyc DESC\n\n")).data =
            subTmp ((a ++ "\nORDER BY keyc DESC\n\n").data) from rfl]
        rw [countOcc_subTmp _ limPat (by decide) (by decide) (by decide)]
        exact g2
      · rw [show (subTmpStr (a ++ "\nORDER BY keyc DESC\n\n")).data =
            subTmp ((a ++ "\nORDER BY keyc DESC\n\n").data) from rfl]
        rw [countOcc_subTmp _ topPat (by decide) (by decide) (by decide)]
        exact g3
    · have hsfx : ordStr q .tsql ++ "\n\n" = "\nORDER BY keyc ASC\n\n" := by
        rw [ordStr, ho]
        simp [hdir]
      rw [hsfx] at hcore
      obtain ⟨g1, g2, g3⟩ := main "\nORDER BY keyc ASC\n\n"
        (by decide) (by decide) (by decide) (by decide) (by decide) (by decide)
      refine ⟨subTmpStr (a ++ "\nORDER BY keyc ASC\n\n"), ?_, ?_, ?_, ?_⟩
      · rw [hcore]; rfl
      · rw [show (subTmpStr (a ++ "\nORDER BY keyc ASC\n\n")).data =
            subTmp ((a ++ "\nORDER BY keyc ASC\n\n").data) from rfl]
        rw [countOcc_subTmp _ ordPat (by decide) (by decide) (by decide)]
        exact g1
      · rw [show (subTmpStr (a ++ "\nORDER BY keyc ASC\n\n")).data =
            subTmp ((a ++ "\nORDER BY keyc ASC\n\n").data) from rfl]
        rw [countOcc_subTmp _ limPat (by decide) (by decide) (by decide)]
        exact g2
      · rw [show (subTmpStr (a ++ "\nORDER BY keyc ASC\n\n")).data =
            subTmp ((a ++ "\nORDER BY keyc ASC\n\n").data) from rfl]
        rw [countOcc_subTmp _ topPat (by decide) (by decide) (by decide)]
        exact g3

/-- C7, witness: the ranking plan `exOrdered` (sorted on the reserved key,
descending) rendered in both dialects. -/
theorem c7_witness :
    (∃ s, genSql exOrdered .mysql false = some s ∧
      countOcc ordPat s.data = 1 ∧
      countOcc limPat s.data = (if Dialect.mysql = Dialect.mysql then 1 else 0) ∧
      countOcc topPat s.data = (if Dialect.mysql = Dialect.tsql then 1 else 0)) ∧
    (∃ s, genSql exOrdered .tsql false = some s ∧
      countOcc ordPat s.data = 1 ∧
      countOcc limPat s.data = (if Dialect.tsql = Dialect.mysql then 1 else 0) ∧
      countOcc topPat s.data = (if Dialect.tsql = Dialect.tsql then 1 else 0)) := by
  constructor
  · exact c7_rowcap exOrdered .mysql
      "SELECT person.person_id, person.income AS keyc\nFROM person"
      rfl rfl (by decide) (by decide) (by decide)
  · exact c7_rowcap exOrdered .tsql
      "SELECT TOP 5 person.person_id, person.income AS keyc\nFROM person"
      rfl rfl (by decide) (by decide) (by decide)

/-- `firstIdx` (Python `list.index` with `ValueError` as `none`) finds
nothing exactly when the element is absent. -/
lemma firstIdx_eq_none_iff (r : String) (l : List String) :
    firstIdx r l = none ↔ r ∉ l := by
  induction l with
  | nil => simp [firstIdx]
  | cons s rest ih =>
    simp only [firstIdx, List.mem_cons]
    by_cases h : s = r
    · subst h; simp
    · rw [if_neg h]
      rw [show (Option.map (fun x => x + 1) (firstIdx r rest) = none) =
        (firstIdx r rest = none) by cases firstIdx r rest <;> simp]
      rw [ih]
      constructor
      · intro hn hm
        rcases hm with hm | hm
        · exact h hm.symm
        · exact hn hm
      · intro hn hm
        exact hn (Or.inr hm)

/-- `substitute_table` never touches the `frozen_qsts` list. -/
lemma substQ_frozen (o n : String) (q : QS) :
    (substQ o n q).frozen = q.frozen := rfl

/-- The deduplication loop never touches the root's `frozen_qsts` list. -/
lemma dedupGo_root_frozen (tabs : List String) :
    ∀ (pending : List QS) (queries : List String) (kept : List QS) (root : QS)
      (subs : List (String × String)),
      (dedupGo tabs queries kept root subs pending).2.frozen = root.frozen := by
  intro pending
  induction pending with
  | nil => intro queries kept root subs; rfl
  | cons q rest ih =>
    intro queries kept root subs
    rcases hf : firstIdx (reprQ (applySubs subs q)) queries with _ | j
    · simpa [dedupGo, hf] using
        ih (queries ++ [reprQ (applySubs subs q)])
          (kept ++ [applySubs subs q]) root subs
    · simpa [dedupGo, hf, substQ_frozen] using
        ih queries kept
          (substQ (applySubs subs q).tablename (tabs.getD j "") root)
          (subs ++ [((applySubs subs q).tablename, tabs.getD j "")])

/-- The invariant of the deduplication loop: the kept children's renderings
are exactly the `queries` list, so the kept list of any full run has
pairwise-distinct renderings. -/
lemma dedupGo_kept_nodup (tabs : List String) :
    ∀ (pending : List QS) (queries : List String) (kept : List QS) (root : QS)
      (subs : List (String × String)),
      queries.Nodup → kept.map reprQ = queries →
      ((dedupGo tabs queries kept root subs pending).1.map reprQ).Nodup := by
  intro pending
  induction pending with
  | nil =>
    intro queries kept root subs h1 h2
    simpa [dedupGo, h2] using h1
  | cons q rest ih =>
    intro queries kept root subs h1 h2
    rcases hf : firstIdx (reprQ (applySubs subs q)) queries with _ | j
    · have hnotin : reprQ (applySubs subs q) ∉ queries :=
        (firstIdx_eq_none_iff _ _).mp hf
      have h1a : (queries ++ [reprQ (applySubs subs q)]).Nodup := by
        rw [List.nodup_append]
        refine ⟨h1, List.nodup_singleton _, ?_⟩
        intro a ha hb
        rw [List.mem_singleton] at hb
        subst hb
        exact hnotin ha
      have h2a : (kept ++ [applySubs subs q]).map reprQ =
          queries ++ [reprQ (applySubs subs q)] := by
        simp [h2]
      simpa [dedupGo, hf] using
        ih (queries ++ [reprQ (applySubs subs q)])
          (kept ++ [applySubs subs q]) root subs h1a h2a
    · simpa [dedupGo, hf] using
        ih queries kept
          (substQ (applySubs subs q).tablename (tabs.getD j "") root)
          (subs ++ [((applySubs subs q).tablename, tabs.getD j "")]) h1 h2

/-- A run of the deduplication loop over children whose renderings are fresh
and pairwise distinct keeps everything unchanged and never rewrites the
root. -/
lemma dedupGo_nodup_run (tabs : List String) :
    ∀ (pending : List QS) (queries : List String) (kept : List QS) (root : QS),
      (queries ++ pending.map reprQ).Nodup →
      dedupGo tabs queries kept root [] pending = (kept ++ pending, root) := by
  intro pending
  induction pending with
  | nil => intro queries kept root h; simp [dedupGo]
  | cons q rest ih =>
    intro queries kept root h
    have hnotin : reprQ q ∉ queries := by
      rw [List.nodup_append] at h
      intro hm
      exact h.2.2 hm (by simp)
    have hnone : firstIdx (reprQ q) queries = none :=
      (firstIdx_eq_none_iff _ _).mpr hnotin
    have h2 : ((queries ++ [reprQ q]) ++ rest.map reprQ).Nodup := by
      simpa [List.append_assoc] using h
    simp only [dedupGo, applySubs, List.foldl_nil, hnone]
    rw [ih (queries ++ [reprQ q]) (kept ++ [q]) root h2]
    simp

/-- Replacing the children list twice keeps only the second replacement. -/
lemma withFrozen_withFrozen (q : QS) (a b : List QS) :
    (q.withFrozen a).withFrozen b = q.withFrozen b := by
  cases q; rfl

/-- Reading back a replaced children list. -/
lemma frozen_withFrozen (q : QS) (l : List QS) :
    (q.withFrozen l).frozen = l := by
  cases q; rfl

/-- Replacing the children list by itself is the identity. -/
lemma withFrozen_self (q : QS) : q.withFrozen q.frozen = q := by
  cases q; rfl

/-- `dedup_frozen` in closed form: loop over the original children with the
root's own copy emptied, then install the kept list. -/
lemma dedupFrozen_eq (r : QS) :
    dedupFrozen r =
      (dedupGo (r.frozen.map QS.tablename) [] [] (r.withFrozen []) []
        r.frozen).2.withFrozen
      (dedupGo (r.frozen.map QS.tablename) [] [] (r.withFrozen []) []
        r.frozen).1 := by
  simp [dedupFrozen, DEDUP_FROZEN]

/-- C9.  The deduplication pass is idempotent: the children kept by a first
`dedup_frozen` have pairwise-distinct renderings, so a second pass finds no
duplicate, keeps every child and performs no table renaming — the root plan
(children list and all rendered fields) is returned unchanged. -/
theorem c9_dedupe_idempotent (root : QS) :
    dedupFrozen (dedupFrozen root) = dedupFrozen root := by
  rcases hq : dedupGo (root.frozen.map QS.tablename) [] [] (root.withFrozen [])
      [] root.frozen with ⟨ks, rt⟩
  have h1 : dedupFrozen root = rt.withFrozen ks := by
    rw [dedupFrozen_eq root, hq]
  have hfr : rt.frozen = [] := by
    have h := dedupGo_root_frozen (root.frozen.map QS.tablename) root.frozen
      [] [] (root.withFrozen []) []
    rw [hq] at h
    simpa [frozen_withFrozen] using h
  have hnd : (ks.map reprQ).Nodup := by
    have h := dedupGo_kept_nodup (root.frozen.map QS.tablename) root.frozen
      [] [] (root.withFrozen []) [] List.nodup_nil rfl
    rw [hq] at h
    simpa using h
  have hrt : rt.withFrozen [] = rt := by
    rw [← hfr]; exact withFrozen_self rt
  rw [h1, dedupFrozen_eq (rt.withFrozen ks), frozen_withFrozen,
    withFrozen_withFrozen, hrt,
    dedupGo_nodup_run (ks.map QS.tablename) ks [] [] rt (by simpa using hnd)]
  rfl

/-- C6, counterexample.  Two `Kind` instances of *different* concrete
variants (an `ObjectType` and a `Measure`) but with the same identity token
compare equal under `Kind.equals`: the method only checks that the other
object's class is in the concrete-`Kind` list and that the ids agree; it
never compares the receiver's variant with the other's.  So "equality holds
iff same concrete variant and same identity token" fails. -/
theorem c6_counterexample :
    equalsTerm (.typeK .objectType "A" 7) (.typeK .measure "B" 7) = true ∧
    KVariant.objectType ≠ KVariant.measure := by
  refine ⟨?_, by decide⟩
  simp [equalsTerm, isConcreteKind, termId]

/-- C6, amended.  `Kind.equals` on a receiver of any concrete variant is:
the other term is an instance of a concrete `Kind` subclass and the ids are
equal — names are never consulted, but neither is the receiver's own
variant.  `Application.equals` is recursive structural equality: same
operation name, same argument count, and the pairwise argument loop, where
two literal integers are compared by value, a lone literal integer on
either side fails, and two terms recurse (with the other's argument as the
receiver). -/
theorem c6_amended :
    (∀ v n i u, equalsTerm (.typeK v n i) u =
      (isConcreteKind u && termId u == some i)) ∧
    (∀ v n i d c cd u, equalsTerm (.elemK v n i d c cd) u =
      (isConcreteKind u && termId u == some i)) ∧
    (∀ o args o2 args2, equalsTerm (.app o args) (.app o2 args2) =
      (opName o == opName o2 && args.length == args2.length
        && argsEqLoop args args2)) ∧
    (∀ sv tv ss ts,
      argsEqLoop (Term.intLit sv :: ss) (Term.intLit tv :: ts) =
        (tv == sv && argsEqLoop ss ts)) ∧
    (∀ sv ss ta ts, (∀ m, ta ≠ Term.intLit m) →
      argsEqLoop (Term.intLit sv :: ss) (ta :: ts) = false) ∧
    (∀ o2 a2 ss ta ts, (∀ m, ta ≠ Term.intLit m) →
      argsEqLoop (Term.app o2 a2 :: ss) (ta :: ts) =
        (equalsTerm ta (Term.app o2 a2) && argsEqLoop ss ts)) := by
  refine ⟨?_, ?_, ?_, ?_, ?_, ?_⟩
  · intro v n i u; simp [equalsTerm]
  · intro v n i d c cd u; simp [equalsTerm]
  · intro o args o2 args2; simp [equalsTerm]
  · intro sv tv ss ts; simp [argsEqLoop]
  · intro sv ss ta ts hta
    cases ta <;> simp [argsEqLoop]
    exact absurd rfl (hta _)
  · intro o2 a2 ss ta ts hta
    cases ta <;> simp [argsEqLoop, equalsTerm]

/-- C6, amended, witness: the argument-loop equations applied at concrete
inputs — a matched integer pair, an integer against an application, and two
compositions. -/
theorem c6_amended_witness :
    argsEqLoop [Term.intLit 2] [Term.intLit 2] = true ∧
    argsEqLoop [Term.intLit 2] [Term.app .composition []] = false ∧
    argsEqLoop [Term.app .composition []] [Term.app .composition []] = true := by
  refine ⟨?_, ?_, ?_⟩
  · rw [c6_amended.2.2.2.1 2 2 [] []]; simp [argsEqLoop]
  · rw [c6_amended.2.2.2.2.1 2 [] (Term.app .composition []) []
      (by intro m h; cases h)]
  · rw [c6_amended.2.2.2.2.2 .composition [] [] (Term.app .composition []) []
      (by intro m h; cases h)]
    rw [c6_amended.2.2.1 .composition [] .composition []]
    simp [argsEqLoop, opName]

/-- C10.  `cmplvariable` dispatches to the immediate-literal path exactly
when the codomain's name equals the string `"1"` or the variable's own name
starts with `"een"` — a test on name strings, not Kind identity.  On the
table path it selects the owning table's identifier and the variable's
column.  On the immediate path with a name merely starting `"een"` (and
codomain not named `"1"`) the codomain is the literal `1`, the plan has no
joins, and the domain columns are empty unless the variable's domain is an
`ObjectType`. -/
theorem c10_variable_immediate_dispatch (data : List Design) (nm : String)
    (i : ℕ) (dom cod : Term) (code : Option String) (codName : String)
    (order : String) (hc : termNameOf cod = some codName) :
    (cmplvariable data (.elemK .variable nm i dom cod code) none order =
      if codName = "1" ∨ nm.take 3 = "een" then
        cmplimmediate (.elemK .variable nm i dom cod code) none order
      else
        some (mkQStruct
          [.colA ⟨tableNameFor data nm, tableNameFor data nm ++ "_id", ""⟩]
          [.colA ⟨tableNameFor data nm, subSpaces nm, ""⟩]
          (some ⟨tableNameFor data nm, ""⟩) [] [] (.cols []) [] false none order)) ∧
    (codName ≠ "1" → nm.take 3 = "een" →
      cmplimmediate (.elemK .variable nm i dom cod code) none order =
        some (mkQStruct
          (match dom with
           | .typeK .objectType dn _ => [.colA ⟨dn, dn ++ "_id", ""⟩]
           | _ => [])
          [.colA ⟨"", "1", ""⟩]
          (match dom with
           | .typeK .objectType dn _ => some ⟨dn, ""⟩
           | _ => none)
          [] [] (.cols []) [] false none order)) := by
  constructor
  · by_cases h : codName = "1" ∨ nm.take 3 = "een" <;>
      simp [cmplvariable, hc, h]
  · intro h1 h2
    simp [cmplimmediate, hc, h1, h2]
    cases dom with
    | typeK v dn j => cases v <;> rfl
    | elemK v n2 j d2 c2 cd2 => rfl
    | gapT n2 j => rfl
    | gapE n2 j d2 c2 => rfl
    | app o a => rfl
    | intLit m => rfl

/-- C10, witness: a variable named `eenzaamheid` ("merely starts with een")
over the person object type compiles to the literal `1` with the person
identifier as domain; a plain variable goes to the table path. -/
theorem c10_witness :
    cmplvariable cat4 (.elemK .variable "eenzaamheid" 300 personT numberT none)
        none "" =
      some (mkQStruct [.colA ⟨"person", "person_id", ""⟩] [.colA ⟨"", "1", ""⟩]
        (some ⟨"person", ""⟩) [] [] (.cols []) [] false none "") := by
  have h := c10_variable_immediate_dispatch cat4 "eenzaamheid" 300 personT
    numberT none "number" "" (by rfl)
  have h2 := h.2 (by decide) (by decide)
  rw [h.1, if_pos (Or.inr (by decide))]
  exact h2

end Farseer
